import Mathlib

/-!
Shallow embedding of `src/day23.rs` (Advent of Code 2021, day 23): a
lazy-deletion Dijkstra search over amphipod burrow arrangements.

Conventions of the embedding:
* `usize` becomes `Nat`; `checked_sub(1)` becomes a match on `0` / `y + 1`.
* `Vec<Vec<Cell>>` becomes `List (List Cell)`.
* Fallible operations (`Result`, out-of-bounds `Vec` indexing, `unwrap`)
  return `Except` / `Option`; `none` models a panic where the Rust code
  would panic.
* `HashSet<Burrow>` becomes a duplicate-free `List Burrow`
  (`insertB` inserts only when absent), `HashMap<usize, T>` an
  association list.
* The two unbounded loops (`part_a`'s Dijkstra loop and the BFS of
  `find_reachable_cells`) are written with explicit fuel; sufficiency of
  the fuel is proved separately, and `part_a` consumes a proved-sufficient
  amount of fuel found by `Nat.find`.
-/

namespace Day23

inductive Amphipod where
  | amber
  | bronze
  | copper
  | desert
deriving DecidableEq, Fintype

inductive Cell where
  | amphipod (a : Amphipod)
  | wall
  | space
  | empty
deriving DecidableEq, Fintype

/-- `Amphipod::from_char` (src/day23.rs:58-66). -/
def Amphipod.from_char (c : Char) : Except String Amphipod :=
  match c with
  | 'A' => .ok .amber
  | 'B' => .ok .bronze
  | 'C' => .ok .copper
  | 'D' => .ok .desert
  | c => .error ("Invalid amphipod " ++ toString c)

/-- `Amphipod::energy` (src/day23.rs:68-75). -/
def Amphipod.energy : Amphipod → Nat
  | .amber => 1
  | .bronze => 10
  | .copper => 100
  | .desert => 1000

/-- `Cell::from_char` (src/day23.rs:79-86). -/
def Cell.from_char (c : Char) : Except String Cell :=
  match c with
  | '#' => .ok .wall
  | '.' => .ok .empty
  | ' ' => .ok .space
  | c => (Amphipod.from_char c).map Cell.amphipod

/-- `Cell::is_empty` (src/day23.rs:88-90). -/
def Cell.is_empty : Cell → Bool
  | .empty => true
  | _ => false

structure Burrow where
  cells : List (List Cell)
deriving DecidableEq

/-- `str::lines` on the reversed accumulator of the current line: split at
every newline, strip one carriage return right before a newline, and emit
a final fragment only when it is nonempty. -/
def rustLinesAux : List Char → List Char → List (List Char)
  | acc, [] => if acc.isEmpty then [] else acc.reverse :: []
  | acc, '\n' :: rest =>
    (match acc with
     | '\r' :: acc1 => acc1.reverse
     | _ => acc.reverse) :: rustLinesAux [] rest
  | acc, c :: rest => rustLinesAux (c :: acc) rest

/-- `str::lines` as the Rust parser sees the input. -/
def rustLines (s : String) : List (List Char) :=
  rustLinesAux [] s.data

/-- `collect::<Result<Vec<_>>>` over a map: first error wins. -/
def mapExcept (f : α → Except String β) : List α → Except String (List β)
  | [] => .ok []
  | a :: rest =>
    match f a with
    | .error e => .error e
    | .ok b =>
      match mapExcept f rest with
      | .error e => .error e
      | .ok bs => .ok (b :: bs)

/-- `Burrow::from_str` (src/day23.rs:192-202). -/
def Burrow.from_str (s : String) : Except String Burrow :=
  match mapExcept (fun line => mapExcept Cell.from_char line) (rustLines s) with
  | .error e => .error e
  | .ok cells => .ok ⟨cells⟩

/-- `Burrow::get` (src/day23.rs:111-113): `None` when out of bounds. -/
def Burrow.get (b : Burrow) (x y : Nat) : Option Cell :=
  (b.cells.get? y).bind fun row => row.get? x

/-- `Burrow::set` (src/day23.rs:115-117): the Rust code indexes the
vectors directly, so an out-of-bounds write panics; the panic is modelled
as `none`. -/
def Burrow.set (b : Burrow) (x y : Nat) (c : Cell) : Option Burrow :=
  match b.get x y with
  | some _ => some ⟨b.cells.set y ((b.cells.getD y []).set x c)⟩
  | none => none

/-- `Burrow::take` (src/day23.rs:119-123): reads the cell and resets it to
`Empty`; `None` when out of bounds. -/
def Burrow.take (b : Burrow) (x y : Nat) : Option (Cell × Burrow) :=
  match b.get x y with
  | some c => some (c, ⟨b.cells.set y ((b.cells.getD y []).set x Cell.empty)⟩)
  | none => none

/-- `Burrow::find_amphipods` (src/day23.rs:125-135): row-major list of the
occupied cells. -/
def Burrow.find_amphipods (b : Burrow) : List (Nat × Nat × Amphipod) :=
  (b.cells.enum.map fun p =>
    p.2.enum.filterMap fun q =>
      match q.2 with
      | Cell.amphipod a => some (q.1, p.1, a)
      | _ => none).flatten

/-- `Burrow::is_room` (src/day23.rs:137-142). -/
def Burrow.is_room (x y : Nat) : Bool :=
  match x, y with
  | 3, 2 => true
  | 3, 3 => true
  | 5, 2 => true
  | 5, 3 => true
  | 7, 2 => true
  | 7, 3 => true
  | 9, 2 => true
  | 9, 3 => true
  | _, _ => false

/-- `Burrow::is_hallway` (src/day23.rs:144-150): the legal stopping cells
of the corridor (the cells right outside a room are excluded). -/
def Burrow.is_hallway (x y : Nat) : Bool :=
  match x, y with
  | 1, 1 => true
  | 2, 1 => true
  | 4, 1 => true
  | 6, 1 => true
  | 8, 1 => true
  | 10, 1 => true
  | 11, 1 => true
  | _, _ => false

/-- The `target_str` text built in `Burrow::target` (src/day23.rs:101-106). -/
def targetStr : String :=
  "#############\n#...........#\n###A#B#C#D###\n  #A#B#C#D#\n  #########\n"

/-- `Burrow::target` (src/day23.rs:100-109); the parse of the literal
always succeeds, so the `unwrap` never panics (the `error` arm is dead). -/
def Burrow.target : Burrow :=
  match Burrow.from_str targetStr with
  | .ok b => b
  | .error _ => ⟨[]⟩

/-- The in-bounds coordinate `(x, y)` when it holds an `Empty` cell,
otherwise `none`: one arm of the `up` / `right` / `down` / `left`
computations in `find_reachable_cells` (src/day23.rs:164-177),
`self.get(x, y).filter(Cell::is_empty).map(move |_| (x, y))`. -/
def Burrow.emptyAt (b : Burrow) (x y : Nat) : Option (Nat × Nat) :=
  (b.get x y).bind fun c => if c.is_empty then some (x, y) else none

/-- The four candidate neighbours of `(x, y)` in source order
`[up, right, down, left]` flattened (src/day23.rs:164-179); `checked_sub`
underflow yields no candidate. -/
def Burrow.neighbors (b : Burrow) (x y : Nat) : List (Nat × Nat) :=
  ((match y with
    | 0 => none
    | y' + 1 => b.emptyAt x y') ::
   b.emptyAt (x + 1) y ::
   b.emptyAt x (y + 1) ::
   (match x with
    | 0 => none
    | x' + 1 => b.emptyAt x' y) :: []).filterMap id

/-- The body of the `for (nx, ny) in ... .flatten()` loop of the BFS
(src/day23.rs:179-187): push unvisited neighbours, mark them visited and
record them as reachable. -/
def bfsVisit (steps : Nat) :
    List (Nat × Nat) → List (Nat × Nat × Nat) → List (Nat × Nat) → List (Nat × Nat × Nat) →
    List (Nat × Nat × Nat) × List (Nat × Nat) × List (Nat × Nat × Nat)
  | [], queue, visited, acc => (queue, visited, acc)
  | n :: ns, queue, visited, acc =>
    if n ∈ visited then bfsVisit steps ns queue visited acc
    else
      bfsVisit steps ns (queue ++ [(n.1, n.2, steps + 1)]) (n :: visited)
        (acc ++ [(n.1, n.2, steps + 1)])

/-- The `while let Some((x, y, steps)) = queue.pop_front()` loop of the BFS
(src/day23.rs:163-188), with fuel; `none` means the fuel ran out (which
`bfsFuel` below is proved to prevent). -/
def bfsLoop (b : Burrow) :
    Nat → List (Nat × Nat × Nat) → List (Nat × Nat) → List (Nat × Nat × Nat) →
    Option (List (Nat × Nat × Nat))
  | 0, _, _, _ => none
  | _ + 1, [], _, acc => some acc
  | fuel + 1, (x, y, steps) :: rest, visited, acc =>
    match bfsVisit steps (b.neighbors x y) rest visited acc with
    | (queue, visited, acc) => bfsLoop b fuel queue visited acc

/-- Total number of cells of the grid; the BFS visits each at most once. -/
def Burrow.totalCells (b : Burrow) : Nat :=
  (b.cells.map List.length).sum

/-- Enough fuel for the BFS: one per possible queue pop plus one to
reach the empty-queue arm. -/
def bfsFuel (b : Burrow) : Nat :=
  b.totalCells + 2

/-- `Burrow::find_reachable_cells` (src/day23.rs:154-190): reachable empty
cells with their step counts, starting cell excluded. The `getD` arm is
dead: `bfsFuel` is proved sufficient. -/
def Burrow.find_reachable_cells (b : Burrow) (x y : Nat) : List (Nat × Nat × Nat) :=
  (bfsLoop b (bfsFuel b) ((x, y, 0) :: []) ((x, y) :: []) []).getD []

/-- `PriorityQueue` (src/day23.rs:9-14). The heap stores
`(Reverse(priority), Reverse(index))` pairs of the Rust code with the
`Reverse`s unwrapped: `pop` selects the entry whose priority is least,
breaking ties towards the least (earliest) index, exactly the maximum of
the Rust heap's `(Reverse<usize>, Reverse<usize>)` order. -/
structure PriorityQueue (T : Type) where
  heap : List (Nat × Nat)
  values : List (Nat × T)
  next_index : Nat

/-- `PriorityQueue::new` (src/day23.rs:20-26). -/
def PriorityQueue.new (T : Type) : PriorityQueue T :=
  ⟨[], [], 0⟩

/-- `PriorityQueue::push` (src/day23.rs:28-32). -/
def PriorityQueue.push (q : PriorityQueue T) (v : T) (p : Nat) : PriorityQueue T :=
  { heap := (p, q.next_index) :: q.heap
    values := (q.next_index, v) :: q.values
    next_index := q.next_index + 1 }

/-- Whether heap entry `e` beats heap entry `f` in the pop order: lower
priority first, ties broken towards the lower index (the maximum of the
Rust `BinaryHeap`'s `(Reverse, Reverse)` lexicographic order). -/
def heapBefore (e f : Nat × Nat) : Bool :=
  e.1 < f.1 || (e.1 = f.1 && e.2 < f.2)

/-- The heap entry `BinaryHeap::pop` would return: the (unique, as indices
are distinct) pop-order minimum. -/
def heapPopKey : List (Nat × Nat) → Option (Nat × Nat)
  | [] => none
  | e :: es => some (es.foldl (fun best f => if heapBefore f best then f else best) e)

/-- `HashMap::get` on the association list of values. -/
def lookupIdx : List (Nat × T) → Nat → Option T
  | [], _ => none
  | kv :: rest, k => if kv.1 = k then some kv.2 else lookupIdx rest k

/-- `HashMap::remove` on the association list of values. -/
def removeIdx : List (Nat × T) → Nat → List (Nat × T)
  | [], _ => []
  | kv :: rest, k => if kv.1 = k then removeIdx rest k else kv :: removeIdx rest k

/-- Remove one occurrence of a heap entry. -/
def removeEntry : List (Nat × Nat) → (Nat × Nat) → List (Nat × Nat)
  | [], _ => []
  | e :: es, t => if e = t then es else e :: removeEntry es t

/-- `PriorityQueue::pop` (src/day23.rs:34-38). The inner `none` arm models
the `unwrap` panic on a value missing from the side table; it is dead for
every queue built by `push`es. -/
def PriorityQueue.pop (q : PriorityQueue T) : Option ((T × Nat) × PriorityQueue T) :=
  match heapPopKey q.heap with
  | none => none
  | some e =>
    match lookupIdx q.values e.2 with
    | none => none
    | some v =>
      some ((v, e.1),
        { heap := removeEntry q.heap e
          values := removeIdx q.values e.2
          next_index := q.next_index })

/-- The `(outer_target, inner_target)` table of `part_a`
(src/day23.rs:245-250). -/
def Amphipod.targets : Amphipod → (Nat × Nat) × (Nat × Nat)
  | .amber => ((3, 2), (3, 3))
  | .bronze => ((5, 2), (5, 3))
  | .copper => ((7, 2), (7, 3))
  | .desert => ((9, 2), (9, 3))

def Amphipod.outer_target (a : Amphipod) : Nat × Nat := a.targets.1

def Amphipod.inner_target (a : Amphipod) : Nat × Nat := a.targets.2

/-- `inner_target_done` (src/day23.rs:256-259): the inner target cell of
`a`'s room already holds an amphipod of type `a`. -/
def innerTargetDone (b : Burrow) (a : Amphipod) : Bool :=
  match b.get a.inner_target.1 a.inner_target.2 with
  | some (Cell.amphipod o) => o = a
  | _ => false

/-- The two `continue` guards of src/day23.rs:252-263: an amphipod on its
inner target cell, or on its outer target cell with the inner one done,
is never a move source. -/
def skipPiece (b : Burrow) (a : Amphipod) (x y : Nat) : Bool :=
  (x, y) = a.inner_target || (innerTargetDone b a && (x, y) = a.outer_target)

/-- The two `continue` guards of src/day23.rs:266-278: a move of `a` from
`(x, y)` to `(nx, ny)` survives the filters iff this is `true`. -/
def moveAllowed (b : Burrow) (a : Amphipod) (x y nx ny : Nat) : Bool :=
  !(Burrow.is_room x y && !Burrow.is_hallway nx ny) &&
  !(Burrow.is_hallway x y &&
    ((!innerTargetDone b a && (nx, ny) ≠ a.inner_target) ||
     (innerTargetDone b a && (nx, ny) ≠ a.outer_target)))

/-- src/day23.rs:280-282: clone the burrow, `take` the moving amphipod's
cell and `set` it at the destination. `none` models the panics of the
`unwrap` and of the indexing in `set`; both are dead on the coordinates
the search supplies. -/
def applyMove (b : Burrow) (x y nx ny : Nat) : Option Burrow :=
  (b.take x y).bind fun cb => cb.2.set nx ny cb.1

/-- All child burrows of one expansion together with their move costs
`steps * energy` (the body of the `for (x, y, amphipod)` loop of
src/day23.rs:243-292, without the visited filter and pushes, which depend
on the search state and are applied by `pushChildren`). -/
def childrenOf (b : Burrow) : List (Burrow × Nat) :=
  (b.find_amphipods.map fun xya =>
    match xya with
    | (x, y, a) =>
      if skipPiece b a x y then []
      else
        (b.find_reachable_cells x y).filterMap fun nns =>
          match nns with
          | (nx, ny, steps) =>
            if moveAllowed b a x y nx ny then
              (applyMove b x y nx ny).map fun nb => (nb, steps * a.energy)
            else none).flatten

/-- `HashSet::insert` on the duplicate-free list model. -/
def insertB (visited : List Burrow) (b : Burrow) : List Burrow :=
  if b ∈ visited then visited else b :: visited

/-- src/day23.rs:284-291: push every child whose burrow is not yet
visited, at priority `energy + cost`. -/
def pushChildren (visited : List Burrow) (energy : Nat) :
    PriorityQueue Burrow → List (Burrow × Nat) → PriorityQueue Burrow
  | q, [] => q
  | q, (child, cost) :: rest =>
    if child ∈ visited then pushChildren visited energy q rest
    else pushChildren visited energy (q.push child (energy + cost)) rest

/-- Outcome of the fuelled search loop. -/
inductive SearchOut where
  | fuelOut
  | finished (result : Option Nat)
deriving DecidableEq

/-- The `while let Some((burrow, Reverse(energy))) = queue.pop()` loop of
`part_a` (src/day23.rs:235-295), with fuel; `part_a` is proved to supply
enough fuel, so the `fuelOut` arm never surfaces. -/
def searchLoop (target : Burrow) :
    Nat → PriorityQueue Burrow → List Burrow → SearchOut
  | 0, _, _ => .fuelOut
  | fuel + 1, q, visited =>
    match q.pop with
    | none => .finished none
    | some ((b, energy), q1) =>
      if b = target then .finished (some energy)
      else
        let visited1 := insertB visited b
        searchLoop target fuel (pushChildren visited1 energy q1 (childrenOf b)) visited1

/-- The initial frontier queue of `part_a` (src/day23.rs:230-232). -/
def initQueue (b : Burrow) : PriorityQueue Burrow :=
  (PriorityQueue.new Burrow).push b 0

/-- The characters the parser accepts. -/
def parseAllowed : List Char :=
  '#' :: '.' :: ' ' :: 'A' :: 'B' :: 'C' :: 'D' :: []

/-- `(x, y)` addresses a cell of the grid. -/
def Burrow.inBounds (b : Burrow) (x y : Nat) : Prop :=
  y < b.cells.length ∧ x < (b.cells.getD y []).length

lemma cell_from_char_ok_iff (c : Char) :
    (∃ cell, Cell.from_char c = .ok cell) ↔ c ∈ parseAllowed := by
  constructor
  · rintro ⟨cell, h⟩
    by_contra hc
    simp only [parseAllowed, List.mem_cons, List.not_mem_nil, or_false, not_or] at hc
    unfold Cell.from_char at h
    split at h
    · exact hc.1 rfl
    · exact hc.2.1 rfl
    · exact hc.2.2.1 rfl
    · unfold Amphipod.from_char at h
      split at h <;> simp_all [Except.map]
  · intro hc
    simp only [parseAllowed, List.mem_cons, List.not_mem_nil, or_false] at hc
    rcases hc with h | h | h | h | h | h | h <;> subst h <;> exact ⟨_, rfl⟩

lemma mapExcept_ok_iff (f : α → Except String β) (l : List α) :
    (∃ r, mapExcept f l = .ok r) ↔ ∀ a ∈ l, ∃ b, f a = .ok b := by
  induction l with
  | nil => simp [mapExcept]
  | cons a rest ih =>
    simp only [mapExcept, List.mem_cons]
    constructor
    · rintro ⟨r, hr⟩
      split at hr
      · exact absurd hr (by simp)
      · rename_i b hb
        split at hr
        · exact absurd hr (by simp)
        · rename_i bs hbs
          refine fun a' ha' => ha'.elim (fun h => h ▸ ⟨b, hb⟩) fun h => ?_
          exact (ih.mp ⟨bs, hbs⟩) a' h
    · intro h
      obtain ⟨b, hb⟩ := h a (Or.inl rfl)
      obtain ⟨bs, hbs⟩ := ih.mpr fun a' ha' => h a' (Or.inr ha')
      exact ⟨b :: bs, by rw [hb, hbs]⟩

/-- Claim C8: parsing succeeds iff every character of every line is one of
`#`, `.`, space, `A`, `B`, `C`, `D`; any other character makes the parse
return an error (so no grid is produced). -/
theorem C8_parse_ok_iff_all_chars_allowed (s : String) :
    ((∃ b, Burrow.from_str s = .ok b) ↔
      ∀ l ∈ rustLines s, ∀ c ∈ l, c ∈ parseAllowed) ∧
    ((∃ e, Burrow.from_str s = .error e) ↔
      ¬ ∀ l ∈ rustLines s, ∀ c ∈ l, c ∈ parseAllowed) := by
  have hok : (∃ b, Burrow.from_str s = .ok b) ↔
      ∀ l ∈ rustLines s, ∀ c ∈ l, c ∈ parseAllowed := by
    unfold Burrow.from_str
    constructor
    · rintro ⟨b, hb⟩
      split at hb
      · exact absurd hb (by simp)
      · rename_i cells hcells
        intro l hl c hc
        obtain ⟨row, hrow⟩ :=
          (mapExcept_ok_iff (fun line => mapExcept Cell.from_char line)
            (rustLines s)).mp ⟨cells, hcells⟩ l hl
        exact (cell_from_char_ok_iff c).mp
          ((mapExcept_ok_iff Cell.from_char l).mp ⟨row, hrow⟩ c hc)
    · intro h
      obtain ⟨cells, hcells⟩ :=
        (mapExcept_ok_iff (fun line => mapExcept Cell.from_char line)
          (rustLines s)).mpr fun l hl =>
          (mapExcept_ok_iff Cell.from_char l).mpr fun c hc =>
            (cell_from_char_ok_iff c).mpr (h l hl c hc)
      exact ⟨⟨cells⟩, by rw [hcells]⟩
  refine ⟨hok, ?_⟩
  rw [← hok]
  cases h : Burrow.from_str s with
  | ok b => simp [h]
  | error e => simp [h]

/-- Witness for C8 at a concrete input: a text with a stray `X` fails the
character condition and indeed does not parse. -/
theorem C8_parse_witness :
    ¬ ∃ b, Burrow.from_str "##\n#X\n" = .ok b := by
  rw [(C8_parse_ok_iff_all_chars_allowed "##\n#X\n").1]
  intro h
  have hm : ('#' :: 'X' :: []) ∈ rustLines "##\n#X\n" := by decide
  have := h ('#' :: 'X' :: []) hm 'X' (by decide)
  simp [parseAllowed] at this

instance (b : Burrow) (x y : Nat) : Decidable (b.inBounds x y) := by
  unfold Burrow.inBounds
  infer_instance

lemma get?_isSome_iff (l : List α) (n : Nat) : (l.get? n).isSome ↔ n < l.length := by
  rw [List.get?_eq_getElem?, Option.isSome_iff_exists]
  constructor
  · rintro ⟨v, hv⟩
    exact (List.getElem?_eq_some.mp hv).1
  · intro h
    exact ⟨l[n], List.getElem?_eq_getElem h⟩

lemma get_isSome_iff (b : Burrow) (x y : Nat) :
    (b.get x y).isSome ↔ b.inBounds x y := by
  unfold Burrow.get Burrow.inBounds
  cases hy : b.cells.get? y with
  | none =>
    have hle : b.cells.length ≤ y := by
      by_contra hlt
      have := (get?_isSome_iff b.cells y).mpr (by omega)
      rw [hy] at this
      exact absurd this (by simp)
    simp only [Option.none_bind, Option.isSome_none, Bool.false_eq_true, false_iff]
    intro h
    omega
  | some row =>
    have hlt : y < b.cells.length := by
      have := (get?_isSome_iff b.cells y).mp (by rw [hy]; rfl)
      omega
    have hrow : b.cells.getD y [] = row := by
      unfold List.getD
      rw [hy]
      rfl
    simp only [Option.some_bind, hrow]
    rw [get?_isSome_iff]
    exact ⟨fun h => ⟨hlt, h⟩, fun h => h.2⟩

/-- Claim C10: `get` and `take` are trap-free (`none` exactly when the
coordinates are out of bounds), while `set` succeeds exactly in bounds:
out of bounds the Rust `set` panics (modelled by the `none` result). -/
theorem C10_accessor_totality (b : Burrow) (x y : Nat) (c : Cell) :
    ((b.get x y).isSome ↔ b.inBounds x y) ∧
    ((b.take x y).isSome ↔ b.inBounds x y) ∧
    ((b.set x y c).isSome ↔ b.inBounds x y) := by
  refine ⟨get_isSome_iff b x y, ?_, ?_⟩
  · rw [← get_isSome_iff b x y]
    unfold Burrow.take
    cases h : b.get x y <;> simp [h]
  · rw [← get_isSome_iff b x y]
    unfold Burrow.set
    cases h : b.get x y <;> simp [h]

/-- Witness for C10: concrete in-bounds and out-of-bounds coordinates on
the target grid behave as the theorem states. -/
theorem C10_accessor_witness :
    (Burrow.target.get 1 1).isSome ∧ ¬ (Burrow.target.set 20 1 Cell.wall).isSome := by
  constructor
  · exact (C10_accessor_totality Burrow.target 1 1 Cell.wall).1.mpr (by decide)
  · intro h
    have := ((C10_accessor_totality Burrow.target 20 1 Cell.wall).2.2).mp h
    revert this
    decide

/-- A cell inside `a`'s own target room (either depth of the 2-deep
layout). -/
def inOwnRoom (a : Amphipod) (nx ny : Nat) : Prop :=
  (nx, ny) = a.outer_target ∨ (nx, ny) = a.inner_target

instance (a : Amphipod) (nx ny : Nat) : Decidable (inOwnRoom a nx ny) := by
  unfold inOwnRoom
  infer_instance

lemma is_room_cases (x y : Nat) (h : Burrow.is_room x y = true) :
    (x = 3 ∨ x = 5 ∨ x = 7 ∨ x = 9) ∧ (y = 2 ∨ y = 3) := by
  unfold Burrow.is_room at h
  split at h <;> simp_all

lemma room_hallway_disjoint (x y : Nat) (h : Burrow.is_room x y = true) :
    Burrow.is_hallway x y = false := by
  obtain ⟨hx, hy⟩ := is_room_cases x y h
  unfold Burrow.is_hallway
  rcases hx with h1 | h1 | h1 | h1 <;> rcases hy with h2 | h2 <;> subst h1 <;> subst h2 <;> rfl

/-- A concrete arrangement: an Amber amphipod parked on the outer cell of
Bronze's room, with its own room and the hallway entirely empty. -/
def roomSourceExample : Burrow :=
  match Burrow.from_str
      "#############\n#...........#\n###.#A#.#.###\n  #.#.#.#.#\n  #########\n" with
  | .ok b => b
  | .error _ => ⟨[]⟩

/-- Claim C3 counterexample: from the room cell (5, 2), the cell (3, 3)
inside Amber's own target room is reachable (in 5 steps), yet the search's
move filter rejects it — the code never accepts a room-to-room move, not
even into the mover's own target room, so "legal iff hallway-stop OR own
target room" fails in the left-to-right direction being claimed. -/
theorem C3_room_to_room_counterexample :
    Burrow.is_room 5 2 = true ∧
    inOwnRoom Amphipod.amber 3 3 ∧
    (3, 3, 5) ∈ roomSourceExample.find_reachable_cells 5 2 ∧
    moveAllowed roomSourceExample Amphipod.amber 5 2 3 3 = false := by
  refine ⟨rfl, by decide, by decide, by decide⟩

/-- Claim C3 amended: for a piece whose source cell is a room cell, a
candidate move is legal if and only if the destination is a hallway-stop
cell; destinations inside the mover's own target room are rejected like
every other non-hallway-stop destination. -/
theorem C3_room_source_legal_iff_hallway_stop (b : Burrow) (a : Amphipod)
    (x y nx ny : Nat) (h : Burrow.is_room x y = true) :
    moveAllowed b a x y nx ny = true ↔ Burrow.is_hallway nx ny = true := by
  unfold moveAllowed
  rw [h, room_hallway_disjoint x y h]
  cases Burrow.is_hallway nx ny <;> simp

/-- Witness for the amended C3 at concrete inputs: from the room cell
(5, 2) the hallway stop (4, 1) is legal and the room cell (3, 3) is not. -/
theorem C3_room_source_witness :
    moveAllowed roomSourceExample Amphipod.amber 5 2 4 1 = true ∧
    ¬ moveAllowed roomSourceExample Amphipod.amber 5 2 3 2 = true := by
  constructor
  · exact (C3_room_source_legal_iff_hallway_stop roomSourceExample .amber 5 2 4 1 rfl).mpr rfl
  · intro h
    have := (C3_room_source_legal_iff_hallway_stop roomSourceExample .amber 5 2 3 2 rfl).mp h
    exact absurd this (by decide)

/-- The entries of the queue as `(value, priority)` pairs: each heap key
resolved through the side table, in heap-list order. -/
def qEntries (q : PriorityQueue T) : List (T × Nat) :=
  q.heap.filterMap fun e => (lookupIdx q.values e.2).map fun v => (v, e.1)

/-- Well-formedness of a `PriorityQueue`, as maintained by `new` / `push`
/ `pop`: heap keys are distinct, below `next_index` and bound in the side
table, whose keys are distinct and below `next_index` as well. -/
structure WFQ (q : PriorityQueue T) : Prop where
  heap_lt : ∀ e ∈ q.heap, e.2 < q.next_index
  heap_nodup : (q.heap.map Prod.snd).Nodup
  values_lt : ∀ kv ∈ q.values, kv.1 < q.next_index
  values_nodup : (q.values.map Prod.fst).Nodup
  heap_bound : ∀ e ∈ q.heap, ∃ v, lookupIdx q.values e.2 = some v

lemma heapBefore_trans {a b c : Nat × Nat} (h1 : heapBefore a b = true)
    (h2 : heapBefore b c = true) : heapBefore a c = true := by
  simp only [heapBefore, Bool.or_eq_true, decide_eq_true_eq, Bool.and_eq_true] at *
  omega

lemma not_heapBefore_cases {a b : Nat × Nat} (h : ¬ heapBefore a b = true) :
    a = b ∨ heapBefore b a = true := by
  simp only [heapBefore, Bool.or_eq_true, decide_eq_true_eq, Bool.and_eq_true] at *
  rcases a with ⟨a1, a2⟩
  rcases b with ⟨b1, b2⟩
  simp only [Prod.mk.injEq]
  omega

lemma heapPopKey_none_iff (h : List (Nat × Nat)) : heapPopKey h = none ↔ h = [] := by
  cases h <;> simp [heapPopKey]

lemma heapPopKey_spec (h : List (Nat × Nat)) (m : Nat × Nat)
    (hm : heapPopKey h = some m) : m ∈ h ∧ ∀ f ∈ h, ¬ heapBefore f m = true := by
  match h with
  | [] => exact absurd hm (by simp [heapPopKey])
  | e :: es =>
    simp only [heapPopKey, Option.some_inj] at hm
    subst hm
    induction es generalizing e with
    | nil => simp [heapBefore]
    | cons g es ih =>
      have hfold : (g :: es).foldl (fun best f => if heapBefore f best then f else best) e =
          es.foldl (fun best f => if heapBefore f best then f else best)
            (if heapBefore g e then g else e) := rfl
      rw [hfold]
      obtain ⟨ihmem, ihmin⟩ := ih (if heapBefore g e then g else e)
      have hsub : (if heapBefore g e then g else e) = g ∨
          (if heapBefore g e then g else e) = e := by
        split <;> simp
      constructor
      · rcases List.mem_cons.mp ihmem with hh | hh
        · rw [List.mem_cons, List.mem_cons]
          rcases hsub with h1 | h1 <;> rw [hh, h1] <;> simp
        · simp only [List.mem_cons]
          exact Or.inr (Or.inr hh)
      · intro f hf
        simp only [List.mem_cons] at hf
        have hother : ∀ s : Nat × Nat, (s = e ∨ s = g) →
            ¬ heapBefore s (es.foldl (fun best f => if heapBefore f best then f else best)
              (if heapBefore g e then g else e)) = true := by
          intro s hs hbefore
          have hse : ¬ heapBefore s (if heapBefore g e then g else e) = true := by
            split
            · rename_i hge
              rcases hs with h1 | h1 <;> subst h1
              · intro heg
                have := heapBefore_trans heg hge
                simp [heapBefore] at this
              · intro hgg
                simp [heapBefore] at hgg
            · rename_i hge
              rcases hs with h1 | h1 <;> subst h1
              · intro hee
                simp [heapBefore] at hee
              · exact hge
          have hacc := ihmin (if heapBefore g e then g else e) (by simp)
          rcases not_heapBefore_cases hse with h1 | h1
          · rw [h1] at hbefore
            exact hacc hbefore
          · exact hacc (heapBefore_trans h1 hbefore)
        rcases hf with h1 | h1 | h1
        · exact hother f (Or.inl h1)
        · exact hother f (Or.inr h1)
        · exact ihmin f (by simp [h1])

lemma lookupIdx_removeIdx_ne (l : List (Nat × T)) (k k1 : Nat) (h : k1 ≠ k) :
    lookupIdx (removeIdx l k) k1 = lookupIdx l k1 := by
  induction l with
  | nil => rfl
  | cons kv rest ih =>
    show lookupIdx (if kv.1 = k then removeIdx rest k else kv :: removeIdx rest k) k1 =
      if kv.1 = k1 then some kv.2 else lookupIdx rest k1
    by_cases h1 : kv.1 = k
    · rw [if_pos h1, if_neg (by omega : ¬ kv.1 = k1), ih]
    · rw [if_neg h1]
      show (if kv.1 = k1 then some kv.2 else lookupIdx (removeIdx rest k) k1) = _
      rw [ih]

lemma removeEntry_split (h : List (Nat × Nat)) (t : Nat × Nat) (hmem : t ∈ h) :
    ∃ l1 l2, h = l1 ++ t :: l2 ∧ removeEntry h t = l1 ++ l2 ∧ t ∉ l1 := by
  induction h with
  | nil => exact absurd hmem (by simp)
  | cons e es ih =>
    by_cases he : e = t
    · subst he
      exact ⟨[], es, by simp [removeEntry]⟩
    · have hmem1 : t ∈ es := by
        rcases List.mem_cons.mp hmem with h1 | h1
        · exact absurd h1.symm he
        · exact h1
      obtain ⟨l1, l2, hsplit, hrem, hnot⟩ := ih hmem1
      refine ⟨e :: l1, l2, by simp [hsplit], ?_, ?_⟩
      · simp [removeEntry, he, hrem]
      · simp only [List.mem_cons, not_or]
        exact ⟨fun h1 => he h1.symm, hnot⟩

lemma WFQ_new : WFQ (PriorityQueue.new T) := by
  constructor <;> simp [PriorityQueue.new]

lemma lookupIdx_cons_ne (kv : Nat × T) (l : List (Nat × T)) (k : Nat) (h : ¬ kv.1 = k) :
    lookupIdx (kv :: l) k = lookupIdx l k := by
  show (if kv.1 = k then some kv.2 else lookupIdx l k) = _
  rw [if_neg h]

lemma WFQ_push (q : PriorityQueue T) (h : WFQ q) (v : T) (p : Nat) :
    WFQ (q.push v p) := by
  obtain ⟨h1, h2, h3, h4, h5⟩ := h
  refine ⟨?_, ?_, ?_, ?_, ?_⟩
  · intro e he
    simp only [PriorityQueue.push, List.mem_cons] at he
    rcases he with he | he
    · simp [PriorityQueue.push, he]
    · have := h1 e he
      simp only [PriorityQueue.push]
      omega
  · simp only [PriorityQueue.push, List.map_cons, List.nodup_cons]
    refine ⟨?_, h2⟩
    intro hmem
    obtain ⟨e, he, hkey⟩ := List.mem_map.mp hmem
    have := h1 e he
    omega
  · intro kv hkv
    simp only [PriorityQueue.push, List.mem_cons] at hkv
    rcases hkv with hkv | hkv
    · simp [PriorityQueue.push, hkv]
    · have := h3 kv hkv
      simp only [PriorityQueue.push]
      omega
  · simp only [PriorityQueue.push, List.map_cons, List.nodup_cons]
    refine ⟨?_, h4⟩
    intro hmem
    obtain ⟨kv, hkv, hkey⟩ := List.mem_map.mp hmem
    have := h3 kv hkv
    omega
  · intro e he
    simp only [PriorityQueue.push, List.mem_cons] at he
    rcases he with he | he
    · subst he
      exact ⟨v, by simp [PriorityQueue.push, lookupIdx]⟩
    · obtain ⟨w, hw⟩ := h5 e he
      have hne : ¬ q.next_index = e.2 := by
        have := h1 e he
        omega
      refine ⟨w, ?_⟩
      simp only [PriorityQueue.push]
      rw [lookupIdx_cons_ne _ _ _ hne]
      exact hw

lemma qEntries_push (q : PriorityQueue T) (h : WFQ q) (v : T) (p : Nat) :
    qEntries (q.push v p) = (v, p) :: qEntries q := by
  unfold qEntries
  simp only [PriorityQueue.push, List.filterMap_cons]
  rw [show (lookupIdx ((q.next_index, v) :: q.values) q.next_index).map
      (fun w => (w, p)) = some (v, p) from by simp [lookupIdx]]
  dsimp only
  congr 1
  apply List.filterMap_congr
  intro e he
  have hne : ¬ q.next_index = e.2 := by
    have := h.heap_lt e he
    omega
  rw [lookupIdx_cons_ne _ _ _ hne]

lemma pop_eq_of_keys (q : PriorityQueue T) (m : Nat × Nat) (w : T)
    (hk : heapPopKey q.heap = some m) (hv : lookupIdx q.values m.2 = some w) :
    q.pop = some ((w, m.1),
      { heap := removeEntry q.heap m
        values := removeIdx q.values m.2
        next_index := q.next_index }) := by
  unfold PriorityQueue.pop
  simp only [hk, hv]

lemma pop_eq_none_iff (q : PriorityQueue T) (h : WFQ q) :
    q.pop = none ↔ q.heap = [] := by
  cases hk : heapPopKey q.heap with
  | none =>
    have hnil := (heapPopKey_none_iff q.heap).mp hk
    unfold PriorityQueue.pop
    simp [hk, hnil, heapPopKey]
  | some m =>
    have hmem := (heapPopKey_spec q.heap m hk).1
    obtain ⟨w, hw⟩ := h.heap_bound m hmem
    rw [pop_eq_of_keys q m w hk hw]
    constructor
    · intro hc
      exact absurd hc (by simp)
    · intro hc
      rw [hc] at hmem
      exact absurd hmem (by simp)

/-- Everything `pop` guarantees about a well-formed queue: the returned
entry exists in the heap, resolves through the side table, has minimal
priority, is earliest-pushed among entries of minimal priority, and the
resulting queue is the same queue with exactly that entry removed. -/
lemma pop_spec (q : PriorityQueue T) (h : WFQ q) (v : T) (e : Nat)
    (q1 : PriorityQueue T) (hpop : q.pop = some ((v, e), q1)) :
    ∃ k, (e, k) ∈ q.heap ∧ lookupIdx q.values k = some v ∧
      (∀ f ∈ q.heap, e ≤ f.1) ∧ (∀ f ∈ q.heap, f.1 = e → k ≤ f.2) ∧
      q1.heap = removeEntry q.heap (e, k) ∧
      q1.values = removeIdx q.values k ∧ q1.next_index = q.next_index := by
  cases hk : heapPopKey q.heap with
  | none =>
    unfold PriorityQueue.pop at hpop
    simp [hk] at hpop
  | some m =>
    obtain ⟨hmem, hmin⟩ := heapPopKey_spec q.heap m hk
    cases hv : lookupIdx q.values m.2 with
    | none =>
      unfold PriorityQueue.pop at hpop
      simp [hk, hv] at hpop
    | some w =>
      rw [pop_eq_of_keys q m w hk hv] at hpop
      simp only [Option.some_inj, Prod.mk.injEq] at hpop
      obtain ⟨⟨hw, he1⟩, hq⟩ := hpop
      have hm : (e, m.2) = m := by
        rw [← he1]
      refine ⟨m.2, ?_, ?_, ?_, ?_, ?_, ?_, ?_⟩
      · rw [hm]
        exact hmem
      · rw [← hw]
        exact hv
      · intro f hf
        have := hmin f hf
        simp only [heapBefore, Bool.or_eq_true, decide_eq_true_eq, Bool.and_eq_true] at this
        omega
      · intro f hf hfe
        have := hmin f hf
        simp only [heapBefore, Bool.or_eq_true, decide_eq_true_eq, Bool.and_eq_true] at this
        omega
      · rw [← hq]
        show removeEntry q.heap m = _
        rw [hm]
      · rw [← hq]
      · rw [← hq]

lemma nodup_middle {l1 l2 : List α} {a : α} (h : (l1 ++ a :: l2).Nodup) :
    a ∉ l1 ∧ a ∉ l2 ∧ (l1 ++ l2).Nodup := by
  simp only [List.nodup_append, List.nodup_cons, List.disjoint_cons_right] at h ⊢
  obtain ⟨ha, ⟨hb, hc⟩, hd, he⟩ := h
  exact ⟨hd, hb, ha, hc, he⟩

lemma removeIdx_sublist (l : List (Nat × T)) (k : Nat) : (removeIdx l k).Sublist l := by
  induction l with
  | nil => simp [removeIdx]
  | cons kv rest ih =>
    show (if kv.1 = k then removeIdx rest k else kv :: removeIdx rest k).Sublist (kv :: rest)
    split
    · exact ih.cons kv
    · exact ih.cons₂ kv

lemma WFQ_pop (q : PriorityQueue T) (h : WFQ q) (v : T) (e : Nat)
    (q1 : PriorityQueue T) (hpop : q.pop = some ((v, e), q1)) : WFQ q1 := by
  obtain ⟨k, hmem, hlook, hmin1, hmin2, hheap, hvalues, hnext⟩ := pop_spec q h v e q1 hpop
  obtain ⟨l1, l2, hsplit, hrem, hnot⟩ := removeEntry_split q.heap (e, k) hmem
  have hsub : q1.heap.Sublist q.heap := by
    rw [hheap, hrem, hsplit]
    exact ((l2.sublist_cons_self (e, k)).append_left l1)
  have hkeysub : (q1.heap.map Prod.snd).Sublist (q.heap.map Prod.snd) := hsub.map Prod.snd
  have hknotin : ∀ f ∈ q1.heap, f.2 ≠ k := by
    intro f hf hfk
    have hnodup := h.heap_nodup
    rw [hsplit, List.map_append, List.map_cons] at hnodup
    obtain ⟨hn1, hn2, _⟩ := nodup_middle hnodup
    rw [hheap, hrem] at hf
    rcases List.mem_append.mp hf with hm | hm
    · exact hn1 (hfk ▸ List.mem_map.mpr ⟨f, hm, rfl⟩)
    · exact hn2 (hfk ▸ List.mem_map.mpr ⟨f, hm, rfl⟩)
  refine ⟨?_, ?_, ?_, ?_, ?_⟩
  · intro f hf
    rw [hnext]
    exact h.heap_lt f (hsub.mem hf)
  · exact h.heap_nodup.sublist hkeysub
  · intro kv hkv
    rw [hnext]
    rw [hvalues] at hkv
    exact h.values_lt kv ((removeIdx_sublist q.values k).mem hkv)
  · rw [hvalues]
    exact h.values_nodup.sublist ((removeIdx_sublist q.values k).map Prod.fst)
  · intro f hf
    obtain ⟨w, hw⟩ := h.heap_bound f (hsub.mem hf)
    refine ⟨w, ?_⟩
    rw [hvalues, lookupIdx_removeIdx_ne q.values k f.2 (hknotin f hf)]
    exact hw

lemma qEntries_mem_of_heap (q : PriorityQueue T) (p k : Nat) (w : T)
    (hmem : (p, k) ∈ q.heap) (hlook : lookupIdx q.values k = some w) :
    (w, p) ∈ qEntries q := by
  unfold qEntries
  exact List.mem_filterMap.mpr ⟨(p, k), hmem, by rw [hlook]; rfl⟩

lemma qEntries_min (q : PriorityQueue T) (h : WFQ q) (v : T) (e : Nat)
    (q1 : PriorityQueue T) (hpop : q.pop = some ((v, e), q1)) :
    ∀ wp ∈ qEntries q, e ≤ wp.2 := by
  obtain ⟨k, hmem, hlook, hmin1, hmin2, hheap, hvalues, hnext⟩ := pop_spec q h v e q1 hpop
  intro wp hwp
  obtain ⟨f, hf, hfwp⟩ := List.mem_filterMap.mp hwp
  cases hl : lookupIdx q.values f.2 with
  | none => rw [hl] at hfwp; exact absurd hfwp (by simp)
  | some u =>
    rw [hl] at hfwp
    have h2 : some (u, f.1) = some wp := hfwp
    have h3 : (u, f.1) = wp := by injection h2
    have : wp.2 = f.1 := by rw [← h3]
    rw [this]
    exact hmin1 f hf

lemma qEntries_pop (q : PriorityQueue T) (h : WFQ q) (v : T) (e : Nat)
    (q1 : PriorityQueue T) (hpop : q.pop = some ((v, e), q1)) :
    ∃ l1 l2, qEntries q = l1 ++ (v, e) :: l2 ∧ qEntries q1 = l1 ++ l2 := by
  obtain ⟨k, hmem, hlook, hmin1, hmin2, hheap, hvalues, hnext⟩ := pop_spec q h v e q1 hpop
  obtain ⟨h1, h2, hsplit, hrem, hnot⟩ := removeEntry_split q.heap (e, k) hmem
  have hknot : ∀ f, f ∈ h1 ∨ f ∈ h2 → f.2 ≠ k := by
    intro f hf hfk
    have hnodup := h.heap_nodup
    rw [hsplit, List.map_append, List.map_cons] at hnodup
    obtain ⟨hn1, hn2, _⟩ := nodup_middle hnodup
    rcases hf with hm | hm
    · exact hn1 (hfk ▸ List.mem_map.mpr ⟨f, hm, rfl⟩)
    · exact hn2 (hfk ▸ List.mem_map.mpr ⟨f, hm, rfl⟩)
  refine ⟨(h1.filterMap fun f => (lookupIdx q.values f.2).map fun w => (w, f.1)),
    (h2.filterMap fun f => (lookupIdx q.values f.2).map fun w => (w, f.1)), ?_, ?_⟩
  · unfold qEntries
    rw [hsplit, List.filterMap_append, List.filterMap_cons]
    rw [show lookupIdx q.values (e, k).2 = some v from hlook]
    rfl
  · unfold qEntries
    rw [hheap, hrem, List.filterMap_append]
    congr 1
    · apply List.filterMap_congr
      intro f hf
      rw [hvalues, lookupIdx_removeIdx_ne q.values k f.2 (hknot f (Or.inl hf))]
    · apply List.filterMap_congr
      intro f hf
      rw [hvalues, lookupIdx_removeIdx_ne q.values k f.2 (hknot f (Or.inr hf))]

/-- Claim C7: on a well-formed queue, `pop` is empty exactly when no
entries remain, and otherwise returns an entry of minimal cost; among the
entries of that minimal cost it returns the one with the least (hence
earliest-assigned, as `push` hands out strictly increasing sequence
numbers) index, and the returned queue is the input queue with exactly
that one entry removed. `pop` and `push` being functions of the queue,
the pop sequence of a fixed push sequence is deterministic. -/
theorem C7_priority_queue_min_pop (T : Type) (q : PriorityQueue T) (h : WFQ q) :
    (q.pop = none ↔ qEntries q = []) ∧
    (∀ v p, (q.push v p).next_index = q.next_index + 1 ∧
      (p, q.next_index) ∈ (q.push v p).heap) ∧
    (∀ v e q1, q.pop = some ((v, e), q1) →
      (∀ wp ∈ qEntries q, e ≤ wp.2) ∧
      (∃ k, (e, k) ∈ q.heap ∧ lookupIdx q.values k = some v ∧
        (∀ f ∈ q.heap, f.1 = e → k ≤ f.2)) ∧
      (∃ l1 l2, qEntries q = l1 ++ (v, e) :: l2 ∧ qEntries q1 = l1 ++ l2)) := by
  refine ⟨?_, ?_, ?_⟩
  · rw [pop_eq_none_iff q h]
    constructor
    · intro hh
      unfold qEntries
      rw [hh]
      rfl
    · intro hh
      cases hf : q.heap with
      | nil => rfl
      | cons f rest =>
        obtain ⟨w, hw⟩ := h.heap_bound f (by rw [hf]; simp)
        have : (w, f.1) ∈ qEntries q :=
          qEntries_mem_of_heap q f.1 f.2 w (by rw [hf]; simp) hw
        rw [hh] at this
        exact absurd this (by simp)
  · intro v p
    exact ⟨rfl, by simp [PriorityQueue.push]⟩
  · intro v e q1 hpop
    obtain ⟨k, hmem, hlook, hmin1, hmin2, _, _, _⟩ := pop_spec q h v e q1 hpop
    exact ⟨qEntries_min q h v e q1 hpop, ⟨k, hmem, hlook, hmin2⟩,
      qEntries_pop q h v e q1 hpop⟩

/-- A concrete demonstration queue: costs 5, 3, 3 pushed in that order. -/
def demoQ : PriorityQueue Nat :=
  (((PriorityQueue.new Nat).push 10 5).push 20 3).push 30 3

/-- What popping `demoQ` must leave behind. -/
def demoQPopped : PriorityQueue Nat :=
  { heap := (3, 2) :: (5, 0) :: []
    values := (2, 30) :: (0, 10) :: []
    next_index := 3 }

/-- Witness for C7: on the demonstration queue, `pop` returns the value
pushed at cost 3 first (sequence number 1, not 2), and the minimality
clause of the theorem applies to the cost-5 entry. -/
theorem C7_priority_queue_witness :
    demoQ.pop = some ((20, 3), demoQPopped) ∧ 3 ≤ 5 := by
  have hwf : WFQ demoQ := by
    refine ⟨by decide, by decide, by decide, by decide, ?_⟩
    intro e he
    have he2 : e = (3, 2) ∨ e = (3, 1) ∨ e = (5, 0) := by
      simpa [demoQ, PriorityQueue.push, PriorityQueue.new] using he
    rcases he2 with h1 | h1 | h1 <;> subst h1
    · exact ⟨30, by decide⟩
    · exact ⟨20, by decide⟩
    · exact ⟨10, by decide⟩
  refine ⟨by rfl, ?_⟩
  have hmin := ((C7_priority_queue_min_pop Nat demoQ hwf).2.2 20 3 demoQPopped (by rfl)).1
  exact hmin (10, 5) (by decide)

/-- Orthogonal adjacency of two grid coordinates. -/
def Adjacent (c d : Nat × Nat) : Prop :=
  (d.1 = c.1 ∧ d.2 = c.2 + 1) ∨ (d.1 = c.1 ∧ c.2 = d.2 + 1) ∨
  (d.2 = c.2 ∧ d.1 = c.1 + 1) ∨ (d.2 = c.2 ∧ c.1 = d.1 + 1)

/-- A path from `s` of the given length whose every cell after `s` is an
`Empty` cell orthogonally adjacent to its predecessor. -/
inductive EmptyPath (b : Burrow) (s : Nat × Nat) : Nat × Nat → Nat → Prop where
  | refl : EmptyPath b s s 0
  | step {c d n} : EmptyPath b s c n → Adjacent c d →
      b.get d.1 d.2 = some Cell.empty → EmptyPath b s d (n + 1)

/-- `n` is the minimum step count from `s` to `d` through empty cells. -/
def IsDist (b : Burrow) (s d : Nat × Nat) (n : Nat) : Prop :=
  EmptyPath b s d n ∧ ∀ m, EmptyPath b s d m → n ≤ m

lemma isDist_unique {b : Burrow} {s d : Nat × Nat} {n m : Nat}
    (h1 : IsDist b s d n) (h2 : IsDist b s d m) : n = m :=
  Nat.le_antisymm (h1.2 m h2.1) (h2.2 n h1.1)

lemma exists_isDist {b : Burrow} {s d : Nat × Nat} (h : ∃ n, EmptyPath b s d n) :
    ∃ n, IsDist b s d n := by
  have hne : {n | EmptyPath b s d n}.Nonempty := h
  exact ⟨sInf {n | EmptyPath b s d n}, Nat.sInf_mem hne, fun m hm => Nat.sInf_le hm⟩

lemma mem_emptyAt {b : Burrow} {x y : Nat} {d : Nat × Nat} :
    b.emptyAt x y = some d ↔ d = (x, y) ∧ b.get x y = some Cell.empty := by
  unfold Burrow.emptyAt
  cases hg : b.get x y with
  | none => simp
  | some c =>
    cases c <;> simp [Cell.is_empty] <;> exact eq_comm

lemma mem_neighbors {b : Burrow} {x y : Nat} {d : Nat × Nat} :
    d ∈ b.neighbors x y ↔
      Adjacent (x, y) d ∧ b.get d.1 d.2 = some Cell.empty := by
  unfold Burrow.neighbors
  rw [List.mem_filterMap]
  constructor
  · rintro ⟨o, ho, hod⟩
    simp only [id] at hod
    subst hod
    simp only [List.mem_cons, List.not_mem_nil, or_false] at ho
    rcases ho with ho | ho | ho | ho
    · cases y with
      | zero => exact absurd ho.symm (by simp)
      | succ y1 =>
        obtain ⟨hd, hg⟩ := mem_emptyAt.mp ho.symm
        subst hd
        exact ⟨Or.inr (Or.inl ⟨rfl, rfl⟩), hg⟩
    · obtain ⟨hd, hg⟩ := mem_emptyAt.mp ho.symm
      subst hd
      exact ⟨Or.inr (Or.inr (Or.inl ⟨rfl, rfl⟩)), hg⟩
    · obtain ⟨hd, hg⟩ := mem_emptyAt.mp ho.symm
      subst hd
      exact ⟨Or.inl ⟨rfl, rfl⟩, hg⟩
    · cases x with
      | zero => exact absurd ho.symm (by simp)
      | succ x1 =>
        obtain ⟨hd, hg⟩ := mem_emptyAt.mp ho.symm
        subst hd
        exact ⟨Or.inr (Or.inr (Or.inr ⟨rfl, rfl⟩)), hg⟩
  · rintro ⟨hadj, hg⟩
    refine ⟨some d, ?_, rfl⟩
    rcases hadj with ⟨h1, h2⟩ | ⟨h1, h2⟩ | ⟨h1, h2⟩ | ⟨h1, h2⟩
    · have hd : d = (x, y + 1) := by
        rcases d with ⟨d1, d2⟩
        simp only at h1 h2
        simp [h1, h2]
      subst hd
      have : b.emptyAt x (y + 1) = some (x, y + 1) := mem_emptyAt.mpr ⟨rfl, hg⟩
      simp [this]
    · cases y with
      | zero => omega
      | succ y1 =>
        have hd : d = (x, y1) := by
          rcases d with ⟨d1, d2⟩
          simp only at h1 h2
          simp [h1]
          omega
        subst hd
        have : b.emptyAt x y1 = some (x, y1) := mem_emptyAt.mpr ⟨rfl, hg⟩
        simp [this]
    · have hd : d = (x + 1, y) := by
        rcases d with ⟨d1, d2⟩
        simp only at h1 h2
        simp [h1, h2]
      subst hd
      have : b.emptyAt (x + 1) y = some (x + 1, y) := mem_emptyAt.mpr ⟨rfl, hg⟩
      simp [this]
    · cases x with
      | zero => omega
      | succ x1 =>
        have hd : d = (x1, y) := by
          rcases d with ⟨d1, d2⟩
          simp only at h1 h2
          simp [h1]
          omega
        subst hd
        have : b.emptyAt x1 y = some (x1, y) := mem_emptyAt.mpr ⟨rfl, hg⟩
        simp [this]

/-- The cells of `ns` that are new when processed sequentially against
`vis`: the cells `bfsVisit` discovers. -/
def newCells : List (Nat × Nat) → List (Nat × Nat) → List (Nat × Nat)
  | _, [] => []
  | vis, n :: ns => if n ∈ vis then newCells vis ns else n :: newCells (n :: vis) ns

lemma bfsVisit_eq (steps : Nat) (ns : List (Nat × Nat)) (queue : List (Nat × Nat × Nat))
    (visited : List (Nat × Nat)) (acc : List (Nat × Nat × Nat)) :
    bfsVisit steps ns queue visited acc =
      (queue ++ (newCells visited ns).map fun n => (n.1, n.2, steps + 1),
       (newCells visited ns).reverse ++ visited,
       acc ++ (newCells visited ns).map fun n => (n.1, n.2, steps + 1)) := by
  induction ns generalizing queue visited acc with
  | nil => simp [bfsVisit, newCells]
  | cons n ns ih =>
    show (if n ∈ visited then bfsVisit steps ns queue visited acc else _) = _
    by_cases hn : n ∈ visited
    · rw [if_pos hn, ih,
        show newCells visited (n :: ns) = newCells visited ns from by
          conv_lhs => unfold newCells
          rw [if_pos hn]]
    · rw [if_neg hn, ih,
        show newCells visited (n :: ns) = n :: newCells (n :: visited) ns from by
          conv_lhs => unfold newCells
          rw [if_neg hn]]
      simp

lemma newCells_subset (vis ns : List (Nat × Nat)) : ∀ z ∈ newCells vis ns, z ∈ ns := by
  induction ns generalizing vis with
  | nil => simp [newCells]
  | cons n ns ih =>
    intro z hz
    show z ∈ n :: ns
    unfold newCells at hz
    split at hz
    · exact List.mem_cons_of_mem n (ih vis z hz)
    · rcases List.mem_cons.mp hz with h1 | h1
      · exact h1 ▸ List.mem_cons_self n ns
      · exact List.mem_cons_of_mem n (ih (n :: vis) z h1)

lemma newCells_not_visited (vis ns : List (Nat × Nat)) :
    ∀ z ∈ newCells vis ns, z ∉ vis := by
  induction ns generalizing vis with
  | nil => simp [newCells]
  | cons n ns ih =>
    intro z hz
    unfold newCells at hz
    split at hz
    · exact ih vis z hz
    · rcases List.mem_cons.mp hz with h1 | h1
      · subst h1
        assumption
      · intro hzv
        exact ih (n :: vis) z h1 (List.mem_cons_of_mem n hzv)

lemma newCells_nodup (vis ns : List (Nat × Nat)) : (newCells vis ns).Nodup := by
  induction ns generalizing vis with
  | nil => simp [newCells]
  | cons n ns ih =>
    unfold newCells
    split
    · exact ih vis
    · refine List.nodup_cons.mpr ⟨?_, ih (n :: vis)⟩
      intro hmem
      exact newCells_not_visited (n :: vis) ns n hmem (List.mem_cons_self n vis)

lemma mem_newCells_or_visited (vis ns : List (Nat × Nat)) :
    ∀ z ∈ ns, z ∈ newCells vis ns ∨ z ∈ vis := by
  induction ns generalizing vis with
  | nil => simp
  | cons n ns ih =>
    intro z hz
    unfold newCells
    split
    · rcases List.mem_cons.mp hz with h1 | h1
      · subst h1
        right
        assumption
      · exact ih vis z h1
    · rcases List.mem_cons.mp hz with h1 | h1
      · subst h1
        left
        exact List.mem_cons_self z _
      · rcases ih (n :: vis) z h1 with h2 | h2
        · exact Or.inl (List.mem_cons_of_mem n h2)
        · rcases List.mem_cons.mp h2 with h3 | h3
          · subst h3
            exact Or.inl (List.mem_cons_self z _)
          · exact Or.inr h3

/-- The row-major list of all in-bounds coordinates. -/
def coordsOf (b : Burrow) : List (Nat × Nat) :=
  (b.cells.enum.map fun p => p.2.enum.map fun q => (q.1, p.1)).flatten

lemma length_coordsOf (b : Burrow) : (coordsOf b).length = b.totalCells := by
  unfold coordsOf Burrow.totalCells
  rw [List.length_flatten, List.map_map]
  have h1 : (List.length ∘ fun p : Nat × List Cell => p.2.enum.map fun q => (q.1, p.1)) =
      fun p : Nat × List Cell => p.2.length := by
    funext p
    simp
  rw [h1,
    show (fun p : Nat × List Cell => p.2.length) = List.length ∘ Prod.snd from rfl,
    ← List.map_map, List.enum_map_snd]

lemma mem_coordsOf (b : Burrow) (z : Nat × Nat) :
    z ∈ coordsOf b ↔ (b.get z.1 z.2).isSome := by
  unfold coordsOf Burrow.get
  rw [List.mem_flatten]
  constructor
  · rintro ⟨L, hL, hzL⟩
    obtain ⟨p, hp, hpL⟩ := List.mem_map.mp hL
    subst hpL
    obtain ⟨q, hq, hqz⟩ := List.mem_map.mp hzL
    have hrow : b.cells.get? p.1 = some p.2 := by
      rw [← List.mem_enum_iff_get?]
      exact hp
    have hcell : p.2.get? q.1 = some q.2 := by
      rw [← List.mem_enum_iff_get?]
      exact hq
    rw [List.get?_eq_getElem?] at hrow hcell
    rw [← hqz]
    simp [hrow, hcell]
  · intro hz
    cases hrow : b.cells.get? z.2 with
    | none => rw [hrow] at hz; exact absurd hz (by simp)
    | some row =>
      rw [hrow] at hz
      cases hcell : row.get? z.1 with
      | none => simp only [Option.some_bind] at hz; rw [hcell] at hz; exact absurd hz (by simp)
      | some c =>
        refine ⟨row.enum.map fun q => (q.1, z.2), ?_, ?_⟩
        · exact List.mem_map.mpr ⟨(z.2, row), List.mem_enum_iff_get?.mpr hrow, rfl⟩
        · exact List.mem_map.mpr ⟨(z.1, c), List.mem_enum_iff_get?.mpr hcell, rfl⟩

/-- The cell of a BFS queue / result entry. -/
def entryCell (e : Nat × Nat × Nat) : Nat × Nat :=
  (e.1, e.2.1)

/-- The loop invariant of the BFS of `find_reachable_cells`, with the
ghost list `P` of already-popped cells. -/
structure BfsInvP (b : Burrow) (s : Nat × Nat) (queue : List (Nat × Nat × Nat))
    (visited : List (Nat × Nat)) (acc : List (Nat × Nat × Nat))
    (P : List (Nat × Nat)) : Prop where
  vis_iff : ∀ z, z ∈ visited ↔ z ∈ P ∨ ∃ m, (z.1, z.2, m) ∈ queue
  vis_nodup : visited.Nodup
  vis_bounds : ∀ z ∈ visited, z = s ∨ (b.get z.1 z.2).isSome
  start_vis : s ∈ visited
  queue_dist : ∀ e ∈ queue, IsDist b s (entryCell e) e.2.2
  queue_cells_nodup : (queue.map entryCell).Nodup
  queue_not_popped : ∀ e ∈ queue, entryCell e ∉ P
  popped_expanded : ∀ p ∈ P, ∀ d ∈ b.neighbors p.1 p.2, d ∈ visited
  levels : ∃ k A B, queue = A ++ B ∧ (∀ e ∈ A, e.2.2 = k) ∧ (∀ e ∈ B, e.2.2 = k + 1)
  acc_spec : ∀ e ∈ acc, IsDist b s (entryCell e) e.2.2 ∧ entryCell e ≠ s ∧ entryCell e ∈ visited
  acc_complete : ∀ z ∈ visited, z ≠ s → ∃ m, (z.1, z.2, m) ∈ acc
  acc_nodup : (acc.map entryCell).Nodup
  acc_steps : ∀ e ∈ acc, e.2.2 + 1 ≤ visited.length
  queue_steps : ∀ e ∈ queue, e.2.2 + 1 ≤ visited.length

lemma emptyPath_zero {b : Burrow} {s d : Nat × Nat} (h : EmptyPath b s d 0) : d = s := by
  cases h
  rfl

lemma emptyPath_succ {b : Burrow} {s d : Nat × Nat} {n : Nat}
    (h : EmptyPath b s d (n + 1)) :
    ∃ p, EmptyPath b s p n ∧ Adjacent p d ∧ b.get d.1 d.2 = some Cell.empty := by
  cases h with
  | step hp hadj hg => exact ⟨_, hp, hadj, hg⟩

/-- Inside the invariant, every cell whose distance is at most the head
entry's step count has already been visited. -/
lemma bfs_close_cells {b : Burrow} {s : Nat × Nat} {x y n : Nat}
    {rest : List (Nat × Nat × Nat)} {visited : List (Nat × Nat)}
    {acc : List (Nat × Nat × Nat)} {P : List (Nat × Nat)}
    (inv : BfsInvP b s ((x, y, n) :: rest) visited acc P) :
    ∀ m, m ≤ n → ∀ z, EmptyPath b s z m → z ∈ visited := by
  intro m
  induction m using Nat.strong_induction_on with
  | _ m ih =>
    intro hmn z hz
    match m, hz with
    | 0, hz =>
      rw [emptyPath_zero hz]
      exact inv.start_vis
    | m1 + 1, hz =>
      obtain ⟨p, hp, hadj, hg⟩ := emptyPath_succ hz
      have hpvis : p ∈ visited := ih m1 (by omega) (by omega) p hp
      rcases (inv.vis_iff p).mp hpvis with hpP | ⟨mp, hmp⟩
      · exact inv.popped_expanded p hpP z (mem_neighbors.mpr ⟨hadj, hg⟩)
      · have hdist := inv.queue_dist (p.1, p.2, mp) hmp
        have hmplt : mp ≤ m1 := by
          exact hdist.2 m1 (by simpa [entryCell] using hp)
        obtain ⟨k, A, B, hAB, hA, hB⟩ := inv.levels
        have hhead : n = k ∨ n = k + 1 := by
          have hmem : (x, y, n) ∈ A ++ B := by
            rw [← hAB]
            simp
          rcases List.mem_append.mp hmem with hm | hm
          · exact Or.inl (hA _ hm)
          · exact Or.inr (hB _ hm)
        have hmpmem : (p.1, p.2, mp) ∈ A ++ B := by
          rw [← hAB]
          exact hmp
        have hmpge : mp = k ∨ mp = k + 1 := by
          rcases List.mem_append.mp hmpmem with hm | hm
          · exact Or.inl (hA _ hm)
          · exact Or.inr (hB _ hm)
        -- the queue is sorted in the two-level sense and the head is first,
        -- so no other entry can sit strictly below the head
        rcases hAB1 : A with _ | ⟨a0, A1⟩
        · rw [hAB1, List.nil_append] at hAB
          have hn1 : n = k + 1 :=
            hB (x, y, n) (by rw [← hAB]; exact List.mem_cons_self _ _)
          have hmp1 : mp = k + 1 :=
            hB (p.1, p.2, mp) (by rw [← hAB]; exact hmp)
          omega
        · have h0 := hAB
          rw [hAB1, List.cons_append] at h0
          injection h0 with h1 h2
          have hn2 : n = k := by
            have h3 := hA a0 (by rw [hAB1]; exact List.mem_cons_self _ _)
            rw [← h1] at h3
            exact h3
          omega

lemma entryCell_mk (a b c : Nat) : entryCell (a, b, c) = (a, b) := rfl

lemma map_entryCell_new (n : Nat) (new : List (Nat × Nat)) :
    (new.map fun c => (c.1, c.2, n + 1)).map entryCell = new := by
  rw [List.map_map]
  have : (entryCell ∘ fun c : Nat × Nat => (c.1, c.2, n + 1)) = id := by
    funext c
    simp [entryCell]
  rw [this, List.map_id]

/-- One pop of the BFS loop preserves the invariant, the popped cell
joining the ghost list. -/
lemma bfs_step_inv {b : Burrow} {s : Nat × Nat} {x y n : Nat}
    {rest : List (Nat × Nat × Nat)} {visited : List (Nat × Nat)}
    {acc : List (Nat × Nat × Nat)} {P : List (Nat × Nat)}
    (inv : BfsInvP b s ((x, y, n) :: rest) visited acc P) :
    BfsInvP b s
      (rest ++ (newCells visited (b.neighbors x y)).map fun c => (c.1, c.2, n + 1))
      ((newCells visited (b.neighbors x y)).reverse ++ visited)
      (acc ++ (newCells visited (b.neighbors x y)).map fun c => (c.1, c.2, n + 1))
      (P ++ (x, y) :: []) := by
  have hnewsub := newCells_subset visited (b.neighbors x y)
  have hnewnv := newCells_not_visited visited (b.neighbors x y)
  have hnewnd := newCells_nodup visited (b.neighbors x y)
  have hhead_dist : IsDist b s (x, y) n := inv.queue_dist (x, y, n) (List.mem_cons_self _ _)
  have hheadvis : (x, y) ∈ visited :=
    (inv.vis_iff (x, y)).mpr (Or.inr ⟨n, List.mem_cons_self _ _⟩)
  have hPvis : ∀ p ∈ P, p ∈ visited := fun p hp => (inv.vis_iff p).mpr (Or.inl hp)
  have hrestvis : ∀ e ∈ rest, entryCell e ∈ visited := by
    intro e he
    refine (inv.vis_iff (entryCell e)).mpr (Or.inr ⟨e.2.2, ?_⟩)
    have : (e.1, e.2.1, e.2.2) = e := rfl
    rw [entryCell, this]
    exact List.mem_cons_of_mem _ he
  have hnew_dist : ∀ z ∈ newCells visited (b.neighbors x y), IsDist b s z (n + 1) := by
    intro z hz
    obtain ⟨hadj, hg⟩ := mem_neighbors.mp (hnewsub z hz)
    refine ⟨EmptyPath.step hhead_dist.1 hadj hg, ?_⟩
    intro m hm
    by_contra hlt
    exact hnewnv z hz (bfs_close_cells inv m (by omega) z hm)
  have hnew_ne_s : ∀ z ∈ newCells visited (b.neighbors x y), z ≠ s := by
    intro z hz he
    exact hnewnv z hz (he ▸ inv.start_vis)
  have hacc_vis : ∀ e ∈ acc, entryCell e ∈ visited := fun e he => (inv.acc_spec e he).2.2
  have hheadcell_not_rest : (x, y) ∉ rest.map entryCell := by
    have := inv.queue_cells_nodup
    rw [List.map_cons] at this
    exact (List.nodup_cons.mp this).1
  have hlen : ((newCells visited (b.neighbors x y)).reverse ++ visited).length =
      visited.length + (newCells visited (b.neighbors x y)).length := by
    rw [List.length_append, List.length_reverse]
    omega
  have hheadsteps : n + 1 ≤ visited.length :=
    inv.queue_steps (x, y, n) (List.mem_cons_self _ _)
  refine ⟨?_, ?_, ?_, ?_, ?_, ?_, ?_, ?_, ?_, ?_, ?_, ?_, ?_, ?_⟩
  · intro z
    simp only [List.mem_append, List.mem_reverse, List.mem_cons, List.not_mem_nil, or_false]
    constructor
    · rintro (hz | hz)
      · refine Or.inr ⟨n + 1, Or.inr ?_⟩
        exact List.mem_map.mpr ⟨z, hz, rfl⟩
      · rcases (inv.vis_iff z).mp hz with hP | ⟨m, hm⟩
        · exact Or.inl (Or.inl hP)
        · rcases List.mem_cons.mp hm with hh | hh
          · have h1 : z.1 = x ∧ z.2 = y := by
              have ha := congrArg Prod.fst hh
              have hb := congrArg Prod.fst (congrArg Prod.snd hh)
              exact ⟨ha, hb⟩
            refine Or.inl (Or.inr ?_)
            rcases z with ⟨z1, z2⟩
            simp only at h1
            simp [h1]
          · exact Or.inr ⟨m, Or.inl hh⟩
    · rintro ((hP | hxy) | ⟨m, hm | hm⟩)
      · exact Or.inr (hPvis z hP)
      · subst hxy
        exact Or.inr hheadvis
      · exact Or.inr ((inv.vis_iff z).mpr (Or.inr ⟨m, List.mem_cons_of_mem _ hm⟩))
      · obtain ⟨c, hc, hcz⟩ := List.mem_map.mp hm
        have h1 : c = z := by
          have ha := congrArg Prod.fst hcz
          have hb := congrArg Prod.fst (congrArg Prod.snd hcz)
          rcases c with ⟨c1, c2⟩
          rcases z with ⟨z1, z2⟩
          simp only at ha hb
          simp [ha, hb]
        exact Or.inl (h1 ▸ hc)
  · refine List.Nodup.append (List.nodup_reverse.mpr hnewnd) inv.vis_nodup ?_
    intro z hz1 hz2
    exact hnewnv z (List.mem_reverse.mp hz1) hz2
  · intro z hz
    rcases List.mem_append.mp hz with hz | hz
    · obtain ⟨_, hg⟩ := mem_neighbors.mp (hnewsub z (List.mem_reverse.mp hz))
      exact Or.inr (by rw [hg]; rfl)
    · exact inv.vis_bounds z hz
  · exact List.mem_append.mpr (Or.inr inv.start_vis)
  · intro e he
    rcases List.mem_append.mp he with he | he
    · exact inv.queue_dist e (List.mem_cons_of_mem _ he)
    · obtain ⟨c, hc, hce⟩ := List.mem_map.mp he
      rw [← hce]
      exact hnew_dist c hc
  · rw [List.map_append, map_entryCell_new]
    refine List.Nodup.append ?_ hnewnd ?_
    · have := inv.queue_cells_nodup
      rw [List.map_cons] at this
      exact (List.nodup_cons.mp this).2
    · intro z hz1 hz2
      obtain ⟨e, he, hez⟩ := List.mem_map.mp hz1
      exact hnewnv z hz2 (hez ▸ hrestvis e he)
  · intro e he hmem
    rcases List.mem_append.mp he with he | he
    · rcases List.mem_append.mp hmem with hp | hp
      · exact inv.queue_not_popped e (List.mem_cons_of_mem _ he) hp
      · rcases List.mem_cons.mp hp with hp | hp
        · exact hheadcell_not_rest (hp ▸ List.mem_map.mpr ⟨e, he, rfl⟩)
        · exact absurd hp (by simp)
    · obtain ⟨c, hc, hce⟩ := List.mem_map.mp he
      have hcell : entryCell e = c := by
        rw [← hce]
        rfl
      rw [hcell] at hmem
      rcases List.mem_append.mp hmem with hp | hp
      · exact hnewnv c hc (hPvis c hp)
      · rcases List.mem_cons.mp hp with hp | hp
        · exact hnewnv c hc (hp ▸ hheadvis)
        · exact absurd hp (by simp)
  · intro p hp d hd
    rcases List.mem_append.mp hp with hp | hp
    · exact List.mem_append.mpr (Or.inr (inv.popped_expanded p hp d hd))
    · rcases List.mem_cons.mp hp with hp | hp
      · subst hp
        rcases mem_newCells_or_visited visited (b.neighbors x y) d hd with h1 | h1
        · exact List.mem_append.mpr (Or.inl (List.mem_reverse.mpr h1))
        · exact List.mem_append.mpr (Or.inr h1)
      · exact absurd hp (by simp)
  · obtain ⟨k, A, B, hAB, hA, hB⟩ := inv.levels
    rcases hA1 : A with _ | ⟨a0, A1⟩
    · rw [hA1, List.nil_append] at hAB
      have hn1 : n = k + 1 := hB (x, y, n) (by rw [← hAB]; exact List.mem_cons_self _ _)
      have hrestB : ∀ e ∈ rest, e.2.2 = k + 1 := by
        intro e he
        exact hB e (by rw [← hAB]; exact List.mem_cons_of_mem _ he)
      refine ⟨k + 1, rest, (newCells visited (b.neighbors x y)).map fun c => (c.1, c.2, n + 1),
        rfl, hrestB, ?_⟩
      intro e he
      obtain ⟨c, hc, hce⟩ := List.mem_map.mp he
      have hsteps : e.2.2 = n + 1 := by
        rw [← hce]
      omega
    · have h0 := hAB
      rw [hA1, List.cons_append] at h0
      injection h0 with h1 h2
      have hn2 : n = k := by
        have h3 := hA a0 (by rw [hA1]; exact List.mem_cons_self _ _)
        rw [← h1] at h3
        exact h3
      refine ⟨k, A1, B ++ (newCells visited (b.neighbors x y)).map fun c => (c.1, c.2, n + 1),
        by rw [← List.append_assoc, ← h2], fun e he => hA e (by rw [hA1]; exact List.mem_cons_of_mem _ he), ?_⟩
      intro e he
      rcases List.mem_append.mp he with he | he
      · exact hB e he
      · obtain ⟨c, hc, hce⟩ := List.mem_map.mp he
        have hsteps : e.2.2 = n + 1 := by
          rw [← hce]
        omega
  · intro e he
    rcases List.mem_append.mp he with he | he
    · obtain ⟨h1, h2, h3⟩ := inv.acc_spec e he
      exact ⟨h1, h2, List.mem_append.mpr (Or.inr h3)⟩
    · obtain ⟨c, hc, hce⟩ := List.mem_map.mp he
      have hcell : entryCell e = c := by
        rw [← hce]
        rfl
      have hsteps : e.2.2 = n + 1 := by
        rw [← hce]
      rw [hcell, hsteps]
      exact ⟨hnew_dist c hc, hnew_ne_s c hc,
        List.mem_append.mpr (Or.inl (List.mem_reverse.mpr hc))⟩
  · intro z hz hzs
    rcases List.mem_append.mp hz with hz | hz
    · refine ⟨n + 1, List.mem_append.mpr (Or.inr ?_)⟩
      exact List.mem_map.mpr ⟨z, List.mem_reverse.mp hz, rfl⟩
    · obtain ⟨m, hm⟩ := inv.acc_complete z hz hzs
      exact ⟨m, List.mem_append.mpr (Or.inl hm)⟩
  · rw [List.map_append, map_entryCell_new]
    refine List.Nodup.append inv.acc_nodup hnewnd ?_
    intro z hz1 hz2
    obtain ⟨e, he, hez⟩ := List.mem_map.mp hz1
    exact hnewnv z hz2 (hez ▸ hacc_vis e he)
  · intro e he
    rw [hlen]
    rcases List.mem_append.mp he with he | he
    · have := inv.acc_steps e he
      omega
    · obtain ⟨c, hc, hce⟩ := List.mem_map.mp he
      have hsteps : e.2.2 = n + 1 := by
        rw [← hce]
      have hpos : 1 ≤ (newCells visited (b.neighbors x y)).length :=
        List.length_pos.mpr (List.ne_nil_of_mem hc)
      omega
  · intro e he
    rw [hlen]
    rcases List.mem_append.mp he with he | he
    · have := inv.queue_steps e (List.mem_cons_of_mem _ he)
      omega
    · obtain ⟨c, hc, hce⟩ := List.mem_map.mp he
      have hsteps : e.2.2 = n + 1 := by
        rw [← hce]
      have hpos : 1 ≤ (newCells visited (b.neighbors x y)).length :=
        List.length_pos.mpr (List.ne_nil_of_mem hc)
      omega

lemma bfs_vis_card {b : Burrow} {s : Nat × Nat} {queue : List (Nat × Nat × Nat)}
    {visited : List (Nat × Nat)} {acc : List (Nat × Nat × Nat)} {P : List (Nat × Nat)}
    (inv : BfsInvP b s queue visited acc P) :
    visited.length ≤ b.totalCells + 1 := by
  have h1 : visited.toFinset.card = visited.length :=
    List.toFinset_card_of_nodup inv.vis_nodup
  have h2 : visited.toFinset ⊆ (s :: coordsOf b).toFinset := by
    intro z hz
    rw [List.mem_toFinset] at hz
    rw [List.mem_toFinset, List.mem_cons]
    rcases inv.vis_bounds z hz with h | h
    · exact Or.inl h
    · exact Or.inr ((mem_coordsOf b z).mpr h)
  have h3 := Finset.card_le_card h2
  have h4 := List.toFinset_card_le (s :: coordsOf b)
  have h5 : (s :: coordsOf b).length = (coordsOf b).length + 1 := by simp
  rw [length_coordsOf] at h5
  omega

lemma bfsLoop_cons_eq (b : Burrow) (fuel x y n : Nat) (rest : List (Nat × Nat × Nat))
    (visited : List (Nat × Nat)) (acc : List (Nat × Nat × Nat)) :
    bfsLoop b (fuel + 1) ((x, y, n) :: rest) visited acc =
      bfsLoop b fuel
        (rest ++ (newCells visited (b.neighbors x y)).map fun c => (c.1, c.2, n + 1))
        ((newCells visited (b.neighbors x y)).reverse ++ visited)
        (acc ++ (newCells visited (b.neighbors x y)).map fun c => (c.1, c.2, n + 1)) := by
  conv_lhs => unfold bfsLoop
  rw [bfsVisit_eq]

/-- With the invariant holding and enough fuel, the BFS loop finishes and
its final state still satisfies the invariant with an empty queue. -/
lemma bfs_loop_sound (b : Burrow) (s : Nat × Nat) :
    ∀ fuel queue visited acc P, BfsInvP b s queue visited acc P →
      1 + queue.length + (b.totalCells + 1) ≤ visited.length + fuel →
      ∃ acc1 visited1 P1, bfsLoop b fuel queue visited acc = some acc1 ∧
        BfsInvP b s [] visited1 acc1 P1 := by
  intro fuel
  induction fuel with
  | zero =>
    intro queue visited acc P inv hfuel
    have := bfs_vis_card inv
    omega
  | succ f ih =>
    intro queue visited acc P inv hfuel
    match queue with
    | [] => exact ⟨acc, visited, P, rfl, inv⟩
    | (x, y, n) :: rest =>
      rw [bfsLoop_cons_eq]
      have hvc := bfs_vis_card inv
      refine ih _ _ _ _ (bfs_step_inv inv) ?_
      simp only [List.length_append, List.length_map, List.length_reverse,
        List.length_cons] at *
      omega

/-- Every reachable cell ends up visited once the queue is exhausted. -/
lemma bfs_final_complete {b : Burrow} {s : Nat × Nat} {visited : List (Nat × Nat)}
    {acc : List (Nat × Nat × Nat)} {P : List (Nat × Nat)}
    (inv : BfsInvP b s [] visited acc P) :
    ∀ m z, EmptyPath b s z m → z ∈ visited := by
  intro m
  induction m with
  | zero =>
    intro z hz
    rw [emptyPath_zero hz]
    exact inv.start_vis
  | succ m1 ih =>
    intro z hz
    obtain ⟨p, hp, hadj, hg⟩ := emptyPath_succ hz
    have hpvis := ih p hp
    rcases (inv.vis_iff p).mp hpvis with hP | ⟨m2, hm2⟩
    · exact inv.popped_expanded p hP z (mem_neighbors.mpr ⟨hadj, hg⟩)
    · exact absurd hm2 (by simp)

/-- The initial BFS state satisfies the invariant. -/
lemma bfs_init_inv (b : Burrow) (s : Nat × Nat) :
    BfsInvP b s ((s.1, s.2, 0) :: []) (s :: []) [] [] := by
  refine ⟨?_, ?_, ?_, ?_, ?_, ?_, ?_, ?_, ?_, ?_, ?_, ?_, ?_, ?_⟩
  · intro z
    simp only [List.mem_cons, List.not_mem_nil, or_false, false_or]
    constructor
    · intro hz
      subst hz
      exact ⟨0, by simp⟩
    · rintro ⟨m, hm⟩
      have h1 := congrArg Prod.fst hm
      have h2 := congrArg Prod.fst (congrArg Prod.snd hm)
      rcases z with ⟨z1, z2⟩
      rcases s with ⟨s1, s2⟩
      simp only at h1 h2
      simp [h1, h2]
  · simp
  · intro z hz
    simp only [List.mem_cons, List.not_mem_nil, or_false] at hz
    exact Or.inl hz
  · simp
  · intro e he
    simp only [List.mem_cons, List.not_mem_nil, or_false] at he
    subst he
    exact ⟨EmptyPath.refl, fun m _ => Nat.zero_le m⟩
  · simp
  · simp
  · simp
  · exact ⟨0, (s.1, s.2, 0) :: [], [], by simp, by simp, by simp⟩
  · simp
  · intro z hz hzs
    simp only [List.mem_cons, List.not_mem_nil, or_false] at hz
    exact absurd hz hzs
  · simp
  · simp
  · intro e he
    simp only [List.mem_cons, List.not_mem_nil, or_false] at he
    subst he
    simp

/-- What `find_reachable_cells` returns: exactly the cells at positive
minimal empty-path distance from the start, each with that distance, and
each cell listed at most once. -/
lemma find_reachable_cells_spec (b : Burrow) (x y : Nat) :
    (∀ nx ny m, (nx, ny, m) ∈ b.find_reachable_cells x y ↔
      ((nx, ny) ≠ (x, y) ∧ IsDist b (x, y) (nx, ny) m)) ∧
    ((b.find_reachable_cells x y).map entryCell).Nodup ∧
    bfsLoop b (bfsFuel b) ((x, y, 0) :: []) ((x, y) :: []) [] ≠ none ∧
    ∀ e ∈ b.find_reachable_cells x y, e.2.2 + 1 ≤ b.totalCells + 1 := by
  obtain ⟨acc1, visited1, P1, hrun, hinv⟩ :=
    bfs_loop_sound b (x, y) (bfsFuel b) ((x, y, 0) :: []) ((x, y) :: []) [] []
      (bfs_init_inv b (x, y)) (by simp [bfsFuel]; omega)
  have hres : b.find_reachable_cells x y = acc1 := by
    unfold Burrow.find_reachable_cells
    rw [hrun]
    rfl
  refine ⟨?_, ?_, ?_, ?_⟩
  · intro nx ny m
    rw [hres]
    constructor
    · intro hmem
      obtain ⟨h1, h2, _⟩ := hinv.acc_spec (nx, ny, m) hmem
      exact ⟨h2, h1⟩
    · rintro ⟨hne, hdist⟩
      have hvis : (nx, ny) ∈ visited1 := bfs_final_complete hinv m (nx, ny) hdist.1
      obtain ⟨m1, hm1⟩ := hinv.acc_complete (nx, ny) hvis hne
      obtain ⟨hd1, _, _⟩ := hinv.acc_spec (nx, ny, m1) hm1
      rw [isDist_unique hdist hd1]
      exact hm1
  · rw [hres]
    exact hinv.acc_nodup
  · rw [hrun]
    simp
  · intro e he
    rw [hres] at he
    have h1 := hinv.acc_steps e he
    have h2 := bfs_vis_card hinv
    omega

/-- Claim C5: for every grid and occupied cell `(x, y)`,
`find_reachable_cells` returns exactly the `Empty` cells reachable from
`(x, y)` through orthogonally adjacent `Empty` cells, each paired with its
minimum step count; the starting cell is excluded, no cell appears twice,
and the traversal terminates (the fuelled loop never exhausts its fuel). -/
theorem C5_find_reachable_cells_correct (b : Burrow) (x y : Nat) (a : Amphipod)
    (h : b.get x y = some (Cell.amphipod a)) :
    (∀ nx ny m, (nx, ny, m) ∈ b.find_reachable_cells x y ↔
      ((nx, ny) ≠ (x, y) ∧ b.get nx ny = some Cell.empty ∧
        IsDist b (x, y) (nx, ny) m)) ∧
    ((b.find_reachable_cells x y).map entryCell).Nodup ∧
    bfsLoop b (bfsFuel b) ((x, y, 0) :: []) ((x, y) :: []) [] ≠ none := by
  obtain ⟨hiff, hnodup, hterm, _⟩ := find_reachable_cells_spec b x y
  refine ⟨?_, hnodup, hterm⟩
  intro nx ny m
  rw [hiff nx ny m]
  constructor
  · rintro ⟨hne, hdist⟩
    refine ⟨hne, ?_, hdist⟩
    match m, hdist with
    | 0, hdist => exact absurd (emptyPath_zero hdist.1) hne
    | m1 + 1, hdist =>
      obtain ⟨p, _, _, hg⟩ := emptyPath_succ hdist.1
      exact hg
  · rintro ⟨hne, _, hdist⟩
    exact ⟨hne, hdist⟩

/-- Witness for C5 at a concrete input: in `roomSourceExample` the cell
(3, 3) is reported reachable from the occupied cell (5, 2) in 5 steps, and
the theorem turns that into the minimal-distance fact. -/
theorem C5_find_reachable_witness :
    (3, 3) ≠ (5, 2) ∧ roomSourceExample.get 3 3 = some Cell.empty ∧
      IsDist roomSourceExample (5, 2) (3, 3) 5 := by
  have h := (C5_find_reachable_cells_correct roomSourceExample 5 2 Amphipod.amber
    (by decide)).1 3 3 5
  exact h.mp (by decide)

lemma getD_eq_of_get? {l : List (List Cell)} {y : Nat} {row : List Cell}
    (h : l.get? y = some row) : l.getD y [] = row := by
  unfold List.getD
  rw [h]
  rfl

/-- Reading the grid produced by writing cell `c` at the in-bounds
position `(x, y)`. -/
lemma get_modified (b : Burrow) (x y : Nat) (c : Cell) (hx : (b.get x y).isSome) :
    ∀ u v, Burrow.get ⟨b.cells.set y ((b.cells.getD y []).set x c)⟩ u v =
      if u = x ∧ v = y then some c else b.get u v := by
  intro u v
  unfold Burrow.get at hx ⊢
  cases hrow : b.cells.get? y with
  | none => rw [hrow] at hx; exact absurd hx (by simp)
  | some row =>
    rw [hrow] at hx
    simp only [Option.some_bind] at hx
    have hxlt : x < row.length := by
      have := (get?_isSome_iff row x).mp hx
      omega
    have hylt : y < b.cells.length := (get?_isSome_iff b.cells y).mp (by rw [hrow]; rfl)
    rw [getD_eq_of_get? hrow]
    by_cases hv : v = y
    · subst hv
      rw [List.get?_eq_getElem?, List.getElem?_set_self (by omega), hrow]
      simp only [Option.some_bind]
      by_cases hu : u = x
      · subst hu
        rw [List.get?_eq_getElem?, List.getElem?_set_self (by omega)]
        simp
      · rw [List.get?_eq_getElem?, List.getElem?_set_ne (by omega), if_neg (by tauto),
          ← List.get?_eq_getElem?]
    · rw [List.get?_eq_getElem?, List.getElem?_set_ne (by omega), if_neg (by tauto),
        ← List.get?_eq_getElem?]

lemma take_get (b : Burrow) (x y : Nat) (c : Cell) (b1 : Burrow)
    (h : b.take x y = some (c, b1)) :
    b.get x y = some c ∧
    ∀ u v, b1.get u v = if u = x ∧ v = y then some Cell.empty else b.get u v := by
  unfold Burrow.take at h
  cases hg : b.get x y with
  | none => rw [hg] at h; exact absurd h (by simp)
  | some c0 =>
    rw [hg] at h
    simp only [Option.some_inj, Prod.mk.injEq] at h
    obtain ⟨hc, hb1⟩ := h
    subst hc
    refine ⟨rfl, ?_⟩
    rw [← hb1]
    exact get_modified b x y Cell.empty (by rw [hg]; rfl)

lemma set_get (b : Burrow) (x y : Nat) (c : Cell) (b1 : Burrow)
    (h : b.set x y c = some b1) :
    ∀ u v, b1.get u v = if u = x ∧ v = y then some c else b.get u v := by
  unfold Burrow.set at h
  cases hg : b.get x y with
  | none => rw [hg] at h; exact absurd h (by simp)
  | some c0 =>
    rw [hg] at h
    simp only [Option.some_inj] at h
    rw [← h]
    exact get_modified b x y c (by rw [hg]; rfl)

lemma mem_find_amphipods (b : Burrow) (x y : Nat) (a : Amphipod) :
    (x, y, a) ∈ b.find_amphipods ↔ b.get x y = some (Cell.amphipod a) := by
  unfold Burrow.find_amphipods Burrow.get
  rw [List.mem_flatten]
  constructor
  · rintro ⟨L, hL, hzL⟩
    obtain ⟨p, hp, hpL⟩ := List.mem_map.mp hL
    subst hpL
    obtain ⟨q, hq, hqz⟩ := List.mem_filterMap.mp hzL
    have hrow : b.cells.get? p.1 = some p.2 := List.mem_enum_iff_get?.mp hp
    have hcell : p.2.get? q.1 = some q.2 := List.mem_enum_iff_get?.mp hq
    cases hc : q.2 with
    | amphipod a1 =>
      rw [hc] at hqz
      simp only [Option.some_inj] at hqz
      have h1 : q.1 = x := congrArg Prod.fst hqz
      have h2 : p.1 = y := congrArg Prod.fst (congrArg Prod.snd hqz)
      have h3 : a1 = a := congrArg Prod.snd (congrArg Prod.snd hqz)
      rw [← h2, hrow]
      simp only [Option.some_bind]
      rw [← h1, hcell, hc, h3]
    | wall => rw [hc] at hqz; exact absurd hqz (by simp)
    | space => rw [hc] at hqz; exact absurd hqz (by simp)
    | empty => rw [hc] at hqz; exact absurd hqz (by simp)
  · intro hg
    cases hrow : b.cells.get? y with
    | none => rw [hrow] at hg; exact absurd hg (by simp)
    | some row =>
      rw [hrow] at hg
      simp only [Option.some_bind] at hg
      refine ⟨row.enum.filterMap fun q =>
        match q.2 with
        | Cell.amphipod a => some (q.1, y, a)
        | _ => none, ?_, ?_⟩
      · exact List.mem_map.mpr ⟨(y, row), List.mem_enum_iff_get?.mpr hrow, rfl⟩
      · exact List.mem_filterMap.mpr ⟨(x, Cell.amphipod a),
          List.mem_enum_iff_get?.mpr hg, rfl⟩

lemma mem_childrenOf (b nb : Burrow) (w : Nat) :
    (nb, w) ∈ childrenOf b ↔ ∃ x y a nx ny steps,
      (x, y, a) ∈ b.find_amphipods ∧ skipPiece b a x y = false ∧
      (nx, ny, steps) ∈ b.find_reachable_cells x y ∧
      moveAllowed b a x y nx ny = true ∧
      applyMove b x y nx ny = some nb ∧ w = steps * a.energy := by
  unfold childrenOf
  rw [List.mem_flatten]
  constructor
  · rintro ⟨L, hL, hmem⟩
    obtain ⟨xya, hxya, hLdef⟩ := List.mem_map.mp hL
    rcases xya with ⟨x, y, a⟩
    subst hLdef
    simp only at hmem
    by_cases hskip : skipPiece b a x y
    · rw [if_pos hskip] at hmem
      exact absurd hmem (by simp)
    · rw [if_neg hskip] at hmem
      obtain ⟨nns, hnns, hval⟩ := List.mem_filterMap.mp hmem
      rcases nns with ⟨nx, ny, steps⟩
      simp only at hval
      by_cases hall : moveAllowed b a x y nx ny
      · rw [if_pos hall] at hval
        cases happ : applyMove b x y nx ny with
        | none => rw [happ] at hval; exact absurd hval (by simp)
        | some nb1 =>
          rw [happ] at hval
          have hval2 : some (nb1, steps * a.energy) = some (nb, w) := hval
          simp only [Option.some_inj, Prod.mk.injEq] at hval2
          exact ⟨x, y, a, nx, ny, steps, hxya, by simp [hskip], hnns, by simp [hall],
            by rw [happ, hval2.1], hval2.2.symm⟩
      · rw [if_neg hall] at hval
        exact absurd hval (by simp)
  · rintro ⟨x, y, a, nx, ny, steps, hxya, hskip, hnns, hall, happ, hw⟩
    refine ⟨(if skipPiece b a x y then []
      else (b.find_reachable_cells x y).filterMap fun nns =>
        match nns with
        | (nx, ny, steps) =>
          if moveAllowed b a x y nx ny then
            (applyMove b x y nx ny).map fun nb => (nb, steps * a.energy)
          else none), ?_, ?_⟩
    · exact List.mem_map.mpr ⟨(x, y, a), hxya, rfl⟩
    · rw [if_neg (by simp [hskip])]
      refine List.mem_filterMap.mpr ⟨(nx, ny, steps), hnns, ?_⟩
      simp only
      rw [if_pos (by simp [hall]), happ, hw]
      rfl

lemma reachable_empty (b : Burrow) (x y nx ny steps : Nat)
    (h : (nx, ny, steps) ∈ b.find_reachable_cells x y) :
    b.get nx ny = some Cell.empty ∧ 1 ≤ steps := by
  obtain ⟨hne, hdist⟩ := ((find_reachable_cells_spec b x y).1 nx ny steps).mp h
  match steps, hdist with
  | 0, hdist => exact absurd (emptyPath_zero hdist.1) hne
  | m + 1, hdist =>
    obtain ⟨p, _, _, hg⟩ := emptyPath_succ hdist.1
    exact ⟨hg, by omega⟩

lemma applyMove_get_ne (b nb : Burrow) (x y nx ny : Nat)
    (h : applyMove b x y nx ny = some nb) :
    ∀ u v, ¬(u = x ∧ v = y) → ¬(u = nx ∧ v = ny) → nb.get u v = b.get u v := by
  intro u v h1 h2
  unfold applyMove at h
  cases ht : b.take x y with
  | none => rw [ht] at h; exact absurd h (by simp)
  | some cb =>
    rw [ht] at h
    simp only [Option.some_bind] at h
    obtain ⟨_, hmid⟩ := take_get b x y cb.1 cb.2 (by rw [ht])
    have hset := set_get cb.2 nx ny cb.1 nb h
    rw [hset u v, if_neg h2, hmid u v, if_neg h1]

/-- Claim C9: a settled piece — one the skip guards of
src/day23.rs:252-263 exclude as a move source, i.e. a piece on its inner
target cell, or on its outer target cell with the inner cell already
correctly filled — keeps its cell in every child arrangement generated
from the expanded arrangement. -/
theorem C9_settled_piece_never_moves (b : Burrow) (a : Amphipod) (sx sy : Nat)
    (hocc : b.get sx sy = some (Cell.amphipod a))
    (hsk : skipPiece b a sx sy = true) :
    ∀ nb w, (nb, w) ∈ childrenOf b → nb.get sx sy = b.get sx sy := by
  intro nb w hmem
  obtain ⟨x, y, a1, nx, ny, steps, hxya, hskip, hreach, hall, happ, hw⟩ :=
    (mem_childrenOf b nb w).mp hmem
  have hxg := (mem_find_amphipods b x y a1).mp hxya
  have hne1 : ¬(sx = x ∧ sy = y) := by
    rintro ⟨h1, h2⟩
    rw [← h1, ← h2, hocc] at hxg
    have ha : a = a1 := by
      have h3 : Cell.amphipod a = Cell.amphipod a1 := by injection hxg
      injection h3
    rw [← ha] at hskip
    rw [h1, h2] at hsk
    rw [hsk] at hskip
    exact absurd hskip (by simp)
  have hne2 : ¬(sx = nx ∧ sy = ny) := by
    rintro ⟨h1, h2⟩
    have hempty := (reachable_empty b x y nx ny steps hreach).1
    rw [← h1, ← h2, hocc] at hempty
    exact absurd (by injection hempty) (by simp)
  exact applyMove_get_ne b nb x y nx ny happ sx sy hne1 hne2

/-- A concrete arrangement with one Bronze parked in the hallway; the
remaining pieces, among them the Amber on (3, 3), are settled. -/
def settledExample : Burrow :=
  match Burrow.from_str
      "#############\n#.B.........#\n###A#.#C#D###\n  #A#B#C#D#\n  #########\n" with
  | .ok b => b
  | .error _ => ⟨[]⟩

/-- Witness for C9: in `settledExample` the settled Amber at (3, 3) is at
the same cell in the generated child (which is the target arrangement,
reached by sending the hallway Bronze home for 40 energy). -/
theorem C9_settled_witness :
    Burrow.target.get 3 3 = settledExample.get 3 3 :=
  C9_settled_piece_never_moves settledExample Amphipod.amber 3 3 (by decide) (by decide)
    Burrow.target 40 (by decide)

lemma pushChildren_WFQ (visited : List Burrow) (energy : Nat) :
    ∀ children q, WFQ q → WFQ (pushChildren visited energy q children) := by
  intro children
  induction children with
  | nil => exact fun q h => h
  | cons cw rest ih =>
    intro q h
    show WFQ (if cw.1 ∈ visited then pushChildren visited energy q rest
      else pushChildren visited energy (q.push cw.1 (energy + cw.2)) rest)
    split
    · exact ih q h
    · exact ih _ (WFQ_push q h cw.1 (energy + cw.2))

/-- Claim C4 amended core: whatever `pushChildren` adds to the frontier is
not in the visited set — duplicates are filtered at push time, not at pop
time. -/
theorem C4_no_visited_child_enqueued (q : PriorityQueue Burrow) (visited : List Burrow)
    (energy : Nat) (children : List (Burrow × Nat)) (h : WFQ q) :
    ∀ e ∈ qEntries (pushChildren visited energy q children),
      e ∈ qEntries q ∨
        (e.1 ∉ visited ∧ ∃ cw ∈ children, cw.1 = e.1 ∧ e.2 = energy + cw.2) := by
  induction children generalizing q with
  | nil => exact fun e he => Or.inl he
  | cons cw rest ih =>
    intro e he
    rw [show pushChildren visited energy q (cw :: rest) =
        (if cw.1 ∈ visited then pushChildren visited energy q rest
         else pushChildren visited energy (q.push cw.1 (energy + cw.2)) rest) from rfl] at he
    split at he
    · rcases ih q h e he with h1 | ⟨h1, cw1, h2, h3⟩
      · exact Or.inl h1
      · exact Or.inr ⟨h1, cw1, List.mem_cons_of_mem _ h2, h3⟩
    · rcases ih _ (WFQ_push q h cw.1 (energy + cw.2)) e he with h1 | ⟨h1, cw1, h2, h3⟩
      · rw [qEntries_push q h] at h1
        rcases List.mem_cons.mp h1 with h2 | h2
        · rename_i hnot
          refine Or.inr ⟨?_, cw, List.mem_cons_self _ _, ?_, ?_⟩
          · rw [h2]
            exact hnot
          · rw [h2]
          · rw [h2]
        · exact Or.inl h2
      · exact Or.inr ⟨h1, cw1, List.mem_cons_of_mem _ h2, h3⟩

/-- The search loop instrumented with the list of arrangements it has
expanded (an expansion is the else-branch of the target test). -/
def searchExpansions (target : Burrow) :
    Nat → PriorityQueue Burrow → List Burrow → List Burrow → SearchOut × List Burrow
  | 0, _, _, tr => (.fuelOut, tr)
  | fuel + 1, q, visited, tr =>
    match q.pop with
    | none => (.finished none, tr)
    | some ((b, energy), q1) =>
      if b = target then (.finished (some energy), tr)
      else
        searchExpansions target fuel
          (pushChildren (insertB visited b) energy q1 (childrenOf b)) (insertB visited b)
          (tr ++ b :: [])

lemma searchExpansions_fst (target : Burrow) :
    ∀ fuel q visited tr,
      (searchExpansions target fuel q visited tr).1 = searchLoop target fuel q visited := by
  intro fuel
  induction fuel with
  | zero => intro q visited tr; rfl
  | succ f ih =>
    intro q visited tr
    unfold searchExpansions searchLoop
    cases hq : q.pop with
    | none => rfl
    | some be =>
      rcases be with ⟨⟨b, energy⟩, q1⟩
      dsimp only
      split
      · rfl
      · exact ih _ _ _

/-- A one-row grid holding a single Amber that can shuttle between three
cells; none of its coordinates is a room or hallway-stop cell, so every
reachable destination is legal. -/
def tinyExample : Burrow :=
  ⟨((Cell.wall :: Cell.amphipod Amphipod.amber :: Cell.empty :: Cell.empty :: Cell.wall :: []) :: [])⟩

/-- `tinyExample` with the Amber on cell 2. -/
def tinyA2 : Burrow :=
  ⟨((Cell.wall :: Cell.empty :: Cell.amphipod Amphipod.amber :: Cell.empty :: Cell.wall :: []) :: [])⟩

/-- `tinyExample` with the Amber on cell 3. -/
def tinyA3 : Burrow :=
  ⟨((Cell.wall :: Cell.empty :: Cell.empty :: Cell.amphipod Amphipod.amber :: Cell.wall :: []) :: [])⟩

/-- Claim C4 counterexample: running the search on `tinyExample`, the
arrangement `tinyA3` is enqueued twice before its first expansion (once
from each of the two earlier arrangements), is dequeued twice, and — as
the loop has no visited check on pop — is expanded twice, contradicting
"no arrangement is ever expanded more than once". -/
theorem C4_reexpansion_counterexample :
    ((searchExpansions Burrow.target 10 (initQueue tinyExample) (tinyExample :: []) []).2.filter
      (fun b => b = tinyA3)).length = 2 ∧
    (searchExpansions Burrow.target 10 (initQueue tinyExample)
      (tinyExample :: []) []).1 = .finished none := by
  constructor
  · decide
  · decide

/-- Witness for the amended C4: expanding `tinyExample` from an empty
frontier enqueues the child `tinyA2` (cost 1), which is indeed not in the
visited set. -/
theorem C4_push_filter_witness :
    (tinyA2, 1) ∈ qEntries (pushChildren (tinyExample :: []) 0
      (PriorityQueue.new Burrow) (childrenOf tinyExample)) ∧
    tinyA2 ∉ (tinyExample :: []) := by
  refine ⟨by decide, ?_⟩
  have h := C4_no_visited_child_enqueued (PriorityQueue.new Burrow) (tinyExample :: []) 0
    (childrenOf tinyExample) WFQ_new (tinyA2, 1) (by decide)
  rcases h with h | h
  · exact absurd h (by decide)
  · exact h.1

/-- `Reaches b0 c n`: the arrangement `c` is obtained from `b0` by a
sequence of generated moves of total energy `n`. -/
inductive Reaches (b0 : Burrow) : Burrow → Nat → Prop where
  | refl : Reaches b0 b0 0
  | step {c : Burrow} {n : Nat} {d : Burrow} {w : Nat} :
      Reaches b0 c n → (d, w) ∈ childrenOf c → Reaches b0 d (n + w)

/-- `n` is the minimum total energy of a move sequence from `b0` to `t`. -/
def DistB (b0 t : Burrow) (n : Nat) : Prop :=
  Reaches b0 t n ∧ ∀ m, Reaches b0 t m → n ≤ m

lemma distB_unique {b0 t : Burrow} {n m : Nat} (h1 : DistB b0 t n) (h2 : DistB b0 t m) :
    n = m :=
  Nat.le_antisymm (h1.2 m h2.1) (h2.2 n h1.1)

lemma exists_distB {b0 t : Burrow} (h : ∃ n, Reaches b0 t n) : ∃ n, DistB b0 t n := by
  have hne : {n | Reaches b0 t n}.Nonempty := h
  exact ⟨sInf {n | Reaches b0 t n}, Nat.sInf_mem hne, fun m hm => Nat.sInf_le hm⟩

/-- The list of row lengths; every generated arrangement keeps it. -/
def rowShape (b : Burrow) : List Nat :=
  b.cells.map List.length

lemma totalCells_of_rowShape {b1 b2 : Burrow} (h : rowShape b1 = rowShape b2) :
    b1.totalCells = b2.totalCells := by
  unfold Burrow.totalCells
  unfold rowShape at h
  rw [h]

lemma rowShape_modified (b : Burrow) (x y : Nat) (c : Cell) :
    rowShape (Burrow.mk (b.cells.set y ((b.cells.getD y []).set x c))) = rowShape b := by
  unfold rowShape
  cases hrow : b.cells.get? y with
  | none =>
    have hge : b.cells.length ≤ y := by
      by_contra hlt
      have := (get?_isSome_iff b.cells y).mpr (by omega)
      rw [hrow] at this
      exact absurd this (by simp)
    rw [List.set_eq_of_length_le hge]
  | some row =>
    rw [getD_eq_of_get? hrow]
    apply List.ext_getElem?
    intro i
    rw [List.getElem?_map, List.getElem?_map]
    by_cases hiy : i = y
    · subst hiy
      have hlt : i < b.cells.length := (get?_isSome_iff b.cells i).mp (by rw [hrow]; rfl)
      rw [List.getElem?_set_self (by omega)]
      rw [List.get?_eq_getElem?] at hrow
      rw [hrow]
      simp [List.length_set]
    · rw [List.getElem?_set_ne (by omega)]

lemma applyMove_shape (b nb : Burrow) (x y nx ny : Nat)
    (h : applyMove b x y nx ny = some nb) : rowShape nb = rowShape b := by
  unfold applyMove at h
  cases ht : b.take x y with
  | none => rw [ht] at h; exact absurd h (by simp)
  | some cb =>
    rw [ht] at h
    simp only [Option.some_bind] at h
    have h1 : rowShape cb.2 = rowShape b := by
      unfold Burrow.take at ht
      cases hg : b.get x y with
      | none => rw [hg] at ht; exact absurd ht (by simp)
      | some c0 =>
        rw [hg] at ht
        simp only [Option.some_inj] at ht
        rw [← ht]
        exact rowShape_modified b x y Cell.empty
    unfold Burrow.set at h
    cases hg : cb.2.get nx ny with
    | none => rw [hg] at h; exact absurd h (by simp)
    | some c1 =>
      rw [hg] at h
      simp only [Option.some_inj] at h
      rw [← h]
      rw [rowShape_modified cb.2 nx ny cb.1]
      exact h1

lemma children_shape {b nb : Burrow} {w : Nat} (h : (nb, w) ∈ childrenOf b) :
    rowShape nb = rowShape b := by
  obtain ⟨x, y, a, nx, ny, steps, _, _, _, _, happ, _⟩ := (mem_childrenOf b nb w).mp h
  exact applyMove_shape b nb x y nx ny happ

lemma energy_bounds (a : Amphipod) : 1 ≤ a.energy ∧ a.energy ≤ 1000 := by
  cases a <;> simp [Amphipod.energy]

/-- The largest possible single-move cost on a grid of `b`'s dimensions. -/
def maxMove (b : Burrow) : Nat :=
  b.totalCells * 1000

lemma children_cost_bounds {b nb : Burrow} {w : Nat} (h : (nb, w) ∈ childrenOf b) :
    1 ≤ w ∧ w ≤ maxMove b := by
  obtain ⟨x, y, a, nx, ny, steps, _, _, hreach, _, _, hw⟩ := (mem_childrenOf b nb w).mp h
  obtain ⟨_, hsteps1⟩ := reachable_empty b x y nx ny steps hreach
  have hsteps2 : steps + 1 ≤ b.totalCells + 1 :=
    (find_reachable_cells_spec b x y).2.2.2 (nx, ny, steps) hreach
  obtain ⟨he1, he2⟩ := energy_bounds a
  subst hw
  constructor
  · exact Nat.mul_le_mul hsteps1 he1
  · exact Nat.mul_le_mul (by omega) he2

lemma find_reachable_cells_length (b : Burrow) (x y : Nat) :
    (b.find_reachable_cells x y).length ≤ b.totalCells := by
  have hnodup := (find_reachable_cells_spec b x y).2.1
  have h1 : ((b.find_reachable_cells x y).map entryCell).toFinset.card =
      ((b.find_reachable_cells x y).map entryCell).length :=
    List.toFinset_card_of_nodup hnodup
  have h2 : ((b.find_reachable_cells x y).map entryCell).toFinset ⊆
      (coordsOf b).toFinset := by
    intro z hz
    rw [List.mem_toFinset] at hz
    rw [List.mem_toFinset]
    obtain ⟨e, he, hez⟩ := List.mem_map.mp hz
    rcases e with ⟨nx, ny, m⟩
    have h3 := (reachable_empty b x y nx ny m he).1
    rw [← hez, entryCell_mk]
    exact (mem_coordsOf b (nx, ny)).mpr (by rw [h3]; rfl)
  have h3 := Finset.card_le_card h2
  have h4 := List.toFinset_card_le (coordsOf b)
  rw [length_coordsOf] at h4
  rw [List.length_map] at h1
  omega

lemma find_amphipods_length (b : Burrow) : b.find_amphipods.length ≤ b.totalCells := by
  unfold Burrow.find_amphipods Burrow.totalCells
  rw [List.length_flatten, List.map_map]
  have h1 : ∀ p ∈ b.cells.enum,
      (List.length ∘ fun p : Nat × List Cell => p.2.enum.filterMap fun q =>
        match q.2 with
        | Cell.amphipod a => some (q.1, p.1, a)
        | _ => none) p ≤ (fun p : Nat × List Cell => p.2.length) p := by
    intro p _
    calc (p.2.enum.filterMap fun q =>
        match q.2 with
        | Cell.amphipod a => some (q.1, p.1, a)
        | _ => none).length ≤ p.2.enum.length := List.length_filterMap_le _ _
      _ = p.2.length := by simp
  calc ((b.cells.enum.map (List.length ∘ fun p : Nat × List Cell =>
      p.2.enum.filterMap fun q =>
        match q.2 with
        | Cell.amphipod a => some (q.1, p.1, a)
        | _ => none))).sum
      ≤ ((b.cells.enum.map fun p : Nat × List Cell => p.2.length)).sum := by
        apply List.sum_le_sum
        intro p hp
        exact h1 p hp
    _ = (b.cells.map List.length).sum := by
        rw [show (fun p : Nat × List Cell => p.2.length) = List.length ∘ Prod.snd from rfl,
          ← List.map_map, List.enum_map_snd]

/-- An upper bound on how many children one expansion can push. -/
def branchBound (b : Burrow) : Nat :=
  b.totalCells * b.totalCells

lemma childrenOf_length (b : Burrow) : (childrenOf b).length ≤ branchBound b := by
  unfold childrenOf branchBound
  rw [List.length_flatten, List.map_map]
  have h1 : ∀ xya ∈ b.find_amphipods,
      ((fun l => List.length l) ∘ fun xya : Nat × Nat × Amphipod =>
        match xya with
        | (x, y, a) =>
          if skipPiece b a x y then []
          else (b.find_reachable_cells x y).filterMap fun nns =>
            match nns with
            | (nx, ny, steps) =>
              if moveAllowed b a x y nx ny then
                (applyMove b x y nx ny).map fun nb => (nb, steps * a.energy)
              else none) xya ≤ b.totalCells := by
    rintro ⟨x, y, a⟩ _
    simp only [Function.comp]
    split
    · simp
    · calc ((b.find_reachable_cells x y).filterMap _).length
          ≤ (b.find_reachable_cells x y).length := List.length_filterMap_le _ _
        _ ≤ b.totalCells := find_reachable_cells_length b x y
  calc (b.find_amphipods.map _).sum
      ≤ (b.find_amphipods.map fun _ => b.totalCells).sum := List.sum_le_sum h1
    _ = b.find_amphipods.length * b.totalCells := by
        induction b.find_amphipods with
        | nil => simp
        | cons e rest ih =>
          rw [List.map_cons, List.sum_cons, ih, List.length_cons]
          ring
    _ ≤ b.totalCells * b.totalCells :=
        Nat.mul_le_mul_right _ (find_amphipods_length b)

lemma flatten_eq_of_shape : ∀ l1 l2 : List (List Cell),
    l1.map List.length = l2.map List.length → l1.flatten = l2.flatten → l1 = l2 := by
  intro l1
  induction l1 with
  | nil =>
    intro l2 hsh _
    cases l2 with
    | nil => rfl
    | cons h2 t2 => exact absurd hsh (by simp)
  | cons h1 t1 ih =>
    intro l2 hsh hfl
    cases l2 with
    | nil => exact absurd hsh (by simp)
    | cons h2 t2 =>
      rw [List.map_cons, List.map_cons] at hsh
      have hlen : h1.length = h2.length := by injection hsh
      have hsh2 : t1.map List.length = t2.map List.length := by injection hsh
      rw [List.flatten_cons, List.flatten_cons] at hfl
      obtain ⟨hh, ht⟩ := List.append_inj hfl hlen
      rw [hh, ih t2 hsh2 ht]

/-- A bound on the number of distinct arrangements of a given shape. -/
def stateBound (L : List Nat) : Nat :=
  Fintype.card (Fin L.sum → Cell)

lemma flatten_length_of_shape {b : Burrow} {L : List Nat} (h : rowShape b = L) :
    b.cells.flatten.length = L.sum := by
  rw [List.length_flatten]
  unfold rowShape at h
  rw [h]

lemma vis_length_le_stateBound (L : List Nat) (vis : List Burrow) (hnd : vis.Nodup)
    (hsh : ∀ v ∈ vis, rowShape v = L) : vis.length ≤ stateBound L := by
  have henc : (vis.map fun b : Burrow =>
      (fun i : Fin L.sum => b.cells.flatten.getD i Cell.wall)).Nodup := by
    rw [List.nodup_map_iff_inj_on hnd]
    intro b1 h1 b2 h2 heq
    have hl1 : b1.cells.flatten.length = L.sum := flatten_length_of_shape (hsh b1 h1)
    have hl2 : b2.cells.flatten.length = L.sum := flatten_length_of_shape (hsh b2 h2)
    have hfl : b1.cells.flatten = b2.cells.flatten := by
      apply List.ext_getElem (by omega)
      intro i hi1 hi2
      have := congrFun heq ⟨i, by omega⟩
      rw [List.getD_eq_getElem _ _ (by omega), List.getD_eq_getElem _ _ (by omega)] at this
      exact this
    have := flatten_eq_of_shape b1.cells b2.cells (by
      have e1 := hsh b1 h1
      have e2 := hsh b2 h2
      unfold rowShape at e1 e2
      rw [e1, e2]) hfl
    rcases b1 with ⟨c1⟩
    rcases b2 with ⟨c2⟩
    simpa using this
  have := henc.length_le_card
  rw [List.length_map] at this
  exact this

/-- The Dijkstra loop invariant of `part_a`'s search: the queue is
well-formed, every entry carries the cost of a real move sequence, every
state has the initial shape, the target was never inserted into the
visited set, each visited arrangement is either still pending with a
queue entry at most its distance or fully relaxed, and every entry's cost
is bounded in terms of the visited-set size (which bounds the costs
globally, giving termination). -/
structure SearchInv (b0 t : Burrow) (q : PriorityQueue Burrow)
    (visited : List Burrow) : Prop where
  wfq : WFQ q
  entries_path : ∀ e ∈ qEntries q, Reaches b0 e.1 e.2
  entries_shape : ∀ e ∈ qEntries q, rowShape e.1 = rowShape b0
  vis_shape : ∀ v ∈ visited, rowShape v = rowShape b0
  vis_nodup : visited.Nodup
  b0_vis : b0 ∈ visited
  t_not_vis : t ∉ visited
  vis_status : ∀ v ∈ visited,
    (∃ e1 d, (v, e1) ∈ qEntries q ∧ DistB b0 v d ∧ e1 ≤ d) ∨
    (∃ d, DistB b0 v d ∧ ∀ cw ∈ childrenOf v,
      cw.1 ∈ visited ∨ ∃ e1, (cw.1, e1) ∈ qEntries q ∧ e1 ≤ d + cw.2)
  entries_bound : ∀ e ∈ qEntries q,
    (e.1 ∈ visited → e.2 ≤ maxMove b0 * visited.length) ∧
    (e.1 ∉ visited → e.2 ≤ maxMove b0 * (visited.length + 1))

/-- Any arrangement reachable at cost `m` is visited already, or the
frontier holds an entry of cost at most `m`. -/
lemma frontier_cover {b0 t : Burrow} {q : PriorityQueue Burrow} {visited : List Burrow}
    (inv : SearchInv b0 t q visited) :
    ∀ z m, Reaches b0 z m → z ∈ visited ∨ ∃ wp ∈ qEntries q, wp.2 ≤ m := by
  intro z m h
  induction h with
  | refl => exact Or.inl inv.b0_vis
  | step hc hedge ih =>
    rename_i c n d w
    rcases ih with hvis | ⟨wp, hwp, hle⟩
    · rcases inv.vis_status c hvis with ⟨e1, dd, hentry, hdist, hled⟩ | ⟨dd, hdist, hrel⟩
      · have hdn : dd ≤ n := hdist.2 n hc
        refine Or.inr ⟨(c, e1), hentry, ?_⟩
        show e1 ≤ n + w
        omega
      · have hdn : dd ≤ n := hdist.2 n hc
        rcases hrel (d, w) hedge with h1 | ⟨e1, hentry, hle1⟩
        · exact Or.inl h1
        · refine Or.inr ⟨(d, e1), hentry, ?_⟩
          show e1 ≤ n + w
          have : (d, w).2 = w := rfl
          omega
    · exact Or.inr ⟨wp, hwp, by omega⟩

lemma qEntries_pushChildren (vis : List Burrow) (en : Nat) :
    ∀ children q, WFQ q →
      qEntries (pushChildren vis en q children) =
        ((children.filter fun cw => cw.1 ∉ vis).map fun cw => (cw.1, en + cw.2)).reverse
          ++ qEntries q := by
  intro children
  induction children with
  | nil => simp [pushChildren]
  | cons cw rest ih =>
    intro q h
    show qEntries (if cw.1 ∈ vis then pushChildren vis en q rest
      else pushChildren vis en (q.push cw.1 (en + cw.2)) rest) = _
    by_cases hmem : cw.1 ∈ vis
    · rw [if_pos hmem, ih q h, List.filter_cons, if_neg (by simp [hmem])]
    · rw [if_neg hmem, ih _ (WFQ_push q h cw.1 (en + cw.2)),
        qEntries_push q h cw.1 (en + cw.2), List.filter_cons, if_pos (by simp [hmem]),
        List.map_cons, List.reverse_cons, List.append_assoc]
      rfl

lemma mem_insertB {vis : List Burrow} {u z : Burrow} :
    z ∈ insertB vis u ↔ z = u ∨ z ∈ vis := by
  unfold insertB
  split
  · constructor
    · exact fun h => Or.inr h
    · rintro (h | h)
      · subst h
        assumption
      · exact h
  · exact List.mem_cons

lemma insertB_nodup {vis : List Burrow} {u : Burrow} (h : vis.Nodup) :
    (insertB vis u).Nodup := by
  unfold insertB
  split
  · exact h
  · exact List.nodup_cons.mpr ⟨by assumption, h⟩

lemma qEntries_pop_subset {T : Type} {q q1 : PriorityQueue T} {v : T} {e : Nat}
    (h : WFQ q) (hpop : q.pop = some ((v, e), q1)) :
    ∀ p ∈ qEntries q1, p ∈ qEntries q := by
  obtain ⟨l1, l2, hs1, hs2⟩ := qEntries_pop q h v e q1 hpop
  intro p hp
  rw [hs2] at hp
  rw [hs1]
  rcases List.mem_append.mp hp with h1 | h1
  · exact List.mem_append.mpr (Or.inl h1)
  · exact List.mem_append.mpr (Or.inr (List.mem_cons_of_mem _ h1))

lemma qEntries_pop_survive {T : Type} {q q1 : PriorityQueue T} {v : T} {e : Nat}
    (h : WFQ q) (hpop : q.pop = some ((v, e), q1)) :
    ∀ c e1, (c, e1) ∈ qEntries q → ¬ (c = v ∧ e1 = e) → (c, e1) ∈ qEntries q1 := by
  obtain ⟨l1, l2, hs1, hs2⟩ := qEntries_pop q h v e q1 hpop
  intro c e1 hmem hnot
  rw [hs1] at hmem
  rw [hs2]
  rcases List.mem_append.mp hmem with h1 | h1
  · exact List.mem_append.mpr (Or.inl h1)
  · rcases List.mem_cons.mp h1 with h2 | h2
    · have hc : c = v := congrArg Prod.fst h2
      have he : e1 = e := congrArg Prod.snd h2
      exact absurd ⟨hc, he⟩ hnot
    · exact List.mem_append.mpr (Or.inr h2)

/-- Membership in the frontier after relaxing all children of `u`. -/
lemma mem_after_push {vis1 : List Burrow} {e : Nat} {u : Burrow}
    {q1 : PriorityQueue Burrow} (h1 : WFQ q1) :
    ∀ p, p ∈ qEntries (pushChildren vis1 e q1 (childrenOf u)) ↔
      ((∃ cw ∈ childrenOf u, cw.1 ∉ vis1 ∧ p = (cw.1, e + cw.2)) ∨ p ∈ qEntries q1) := by
  intro p
  rw [qEntries_pushChildren vis1 e (childrenOf u) q1 h1, List.mem_append, List.mem_reverse]
  constructor
  · rintro (h | h)
    · obtain ⟨cw, hcw, hp⟩ := List.mem_map.mp h
      obtain ⟨hcw1, hcw2⟩ := List.mem_filter.mp hcw
      refine Or.inl ⟨cw, hcw1, ?_, hp.symm⟩
      intro hmem
      rw [decide_eq_true_eq] at hcw2
      exact hcw2 hmem
    · exact Or.inr h
  · rintro (⟨cw, hcw, hnv, hp⟩ | h)
    · refine Or.inl (List.mem_map.mpr ⟨cw, List.mem_filter.mpr ⟨hcw, ?_⟩, hp.symm⟩)
      rw [decide_eq_true_eq]
      exact hnv
    · exact Or.inr h

/-- One non-target pop preserves the search invariant. -/
lemma searchInv_step {b0 t : Burrow} {q : PriorityQueue Burrow} {visited : List Burrow}
    {u : Burrow} {e : Nat} {q1 : PriorityQueue Burrow}
    (inv : SearchInv b0 t q visited) (hpop : q.pop = some ((u, e), q1)) (hne : u ≠ t) :
    SearchInv b0 t (pushChildren (insertB visited u) e q1 (childrenOf u))
      (insertB visited u) := by
  have hwfq1 : WFQ q1 := WFQ_pop q inv.wfq u e q1 hpop
  have hsub := qEntries_pop_subset inv.wfq hpop
  have hsurv := qEntries_pop_survive inv.wfq hpop
  have hmin := qEntries_min q inv.wfq u e q1 hpop
  have hmemq : (u, e) ∈ qEntries q := by
    obtain ⟨l1, l2, hs1, _⟩ := qEntries_pop q inv.wfq u e q1 hpop
    rw [hs1]
    exact List.mem_append.mpr (Or.inr (List.mem_cons_self _ _))
  have hmem2 : ∀ p, p ∈ qEntries (pushChildren (insertB visited u) e q1 (childrenOf u)) ↔
      ((∃ cw ∈ childrenOf u, cw.1 ∉ insertB visited u ∧ p = (cw.1, e + cw.2)) ∨
        p ∈ qEntries q1) := mem_after_push hwfq1
  have hreach_u : Reaches b0 u e := inv.entries_path (u, e) hmemq
  have hshape_u : rowShape u = rowShape b0 := inv.entries_shape (u, e) hmemq
  have htot_u : u.totalCells = b0.totalCells := totalCells_of_rowShape hshape_u
  have hmax_u : maxMove u = maxMove b0 := by
    unfold maxMove
    rw [htot_u]
  have hpush : ∀ cw ∈ childrenOf u, cw.1 ∉ insertB visited u →
      (cw.1, e + cw.2) ∈ qEntries (pushChildren (insertB visited u) e q1 (childrenOf u)) :=
    fun cw hcw hnv => (hmem2 (cw.1, e + cw.2)).mpr (Or.inl ⟨cw, hcw, hnv, rfl⟩)
  have hold : ∀ p ∈ qEntries q1,
      p ∈ qEntries (pushChildren (insertB visited u) e q1 (childrenOf u)) :=
    fun p hp => (hmem2 p).mpr (Or.inr hp)
  -- either e is at most u's distance, or u was already relaxed
  have hcase : (∃ d, DistB b0 u d ∧ e ≤ d) ∨
      (u ∈ visited ∧ ∃ d, DistB b0 u d ∧ ∀ cw ∈ childrenOf u,
        cw.1 ∈ visited ∨ ∃ e1, (cw.1, e1) ∈ qEntries q ∧ e1 ≤ d + cw.2) := by
    obtain ⟨d, hd⟩ := exists_distB ⟨e, hreach_u⟩
    by_cases huv : u ∈ visited
    · rcases inv.vis_status u huv with ⟨e1, d1, hent, hdist1, hle9⟩ | ⟨d1, hdist1, hrel⟩
      · refine Or.inl ⟨d, hd, ?_⟩
        have h1 := hmin (u, e1) hent
        have h2 : d1 = d := distB_unique hdist1 hd
        show e ≤ d
        have h3 : e ≤ e1 := h1
        omega
      · exact Or.inr ⟨huv, d1, hdist1, hrel⟩
    · refine Or.inl ⟨d, hd, ?_⟩
      rcases frontier_cover inv u d hd.1 with h1 | ⟨wp, hwp, hle⟩
      · exact absurd h1 huv
      · have h2 := hmin wp hwp
        omega
  refine ⟨pushChildren_WFQ _ _ _ _ hwfq1, ?_, ?_, ?_, insertB_nodup inv.vis_nodup, ?_,
    ?_, ?_, ?_⟩
  · intro p hp
    rcases (hmem2 p).mp hp with ⟨cw, hcw, hnv, hpe⟩ | hp1
    · rw [hpe]
      show Reaches b0 cw.1 (e + cw.2)
      have hedge : (cw.1, cw.2) ∈ childrenOf u := by
        rw [show ((cw.1, cw.2) : Burrow × Nat) = cw from rfl]
        exact hcw
      exact Reaches.step hreach_u hedge
    · exact inv.entries_path p (hsub p hp1)
  · intro p hp
    rcases (hmem2 p).mp hp with ⟨cw, hcw, hnv, hpe⟩ | hp1
    · rw [hpe]
      show rowShape cw.1 = rowShape b0
      rw [children_shape (show (cw.1, cw.2) ∈ childrenOf u from hcw)]
      exact hshape_u
    · exact inv.entries_shape p (hsub p hp1)
  · intro v hv
    rcases mem_insertB.mp hv with h1 | h1
    · rw [h1]
      exact hshape_u
    · exact inv.vis_shape v h1
  · exact mem_insertB.mpr (Or.inr inv.b0_vis)
  · intro hmem
    rcases mem_insertB.mp hmem with h1 | h1
    · exact hne h1.symm
    · exact inv.t_not_vis h1
  · -- vis_status
    intro v hv
    by_cases hvu : v = u
    · subst hvu
      rcases hcase with ⟨d, hd, hed⟩ | ⟨huv, d, hd, hrel⟩
      · refine Or.inr ⟨d, hd, ?_⟩
        intro cw hcw
        by_cases hcv : cw.1 ∈ insertB visited v
        · exact Or.inl hcv
        · refine Or.inr ⟨e + cw.2, hpush cw hcw hcv, ?_⟩
          omega
      · refine Or.inr ⟨d, hd, ?_⟩
        intro cw hcw
        rcases hrel cw hcw with h1 | ⟨e1, hent, hle⟩
        · exact Or.inl (mem_insertB.mpr (Or.inr h1))
        · by_cases hcu : cw.1 = v
          · exact Or.inl (mem_insertB.mpr (Or.inl hcu))
          · exact Or.inr ⟨e1, hold _ (hsurv cw.1 e1 hent (fun hc => hcu hc.1)), hle⟩
    · have h1 : v ∈ visited := by
        rcases mem_insertB.mp hv with h2 | h2
        · exact absurd h2 hvu
        · exact h2
      rcases inv.vis_status v h1 with ⟨e1, d, hent, hdist, hle⟩ | ⟨d, hdist, hrel⟩
      · exact Or.inl ⟨e1, d, hold _ (hsurv v e1 hent (fun hc => hvu hc.1)), hdist, hle⟩
      · refine Or.inr ⟨d, hdist, ?_⟩
        intro cw hcw
        rcases hrel cw hcw with h2 | ⟨e1, hent, hle⟩
        · exact Or.inl (mem_insertB.mpr (Or.inr h2))
        · by_cases hcu : cw.1 = u
          · exact Or.inl (mem_insertB.mpr (Or.inl hcu))
          · exact Or.inr ⟨e1, hold _ (hsurv cw.1 e1 hent (fun hc => hcu hc.1)), hle⟩
  · -- entries_bound
    have hboundu := inv.entries_bound (u, e) hmemq
    have hlen : (insertB visited u).length = visited.length ∨
        (u ∉ visited ∧ (insertB visited u).length = visited.length + 1) := by
      unfold insertB
      split
      · exact Or.inl rfl
      · exact Or.inr ⟨by assumption, by simp⟩
    have heb : e ≤ maxMove b0 * (insertB visited u).length := by
      by_cases huv : u ∈ visited
      · have h1 := hboundu.1 huv
        have h2 : visited.length ≤ (insertB visited u).length := by
          rcases hlen with h3 | ⟨_, h3⟩ <;> omega
        calc e ≤ maxMove b0 * visited.length := h1
          _ ≤ maxMove b0 * (insertB visited u).length := Nat.mul_le_mul_left _ h2
      · have h1 := hboundu.2 huv
        rcases hlen with h3 | ⟨_, h3⟩
        · unfold insertB at h3
          rw [if_neg huv] at h3
          simp at h3
        · rw [h3]
          exact h1
    intro p hp
    rcases (hmem2 p).mp hp with ⟨cw, hcw, hnv, hpe⟩ | hp1
    · constructor
      · intro hmem
        rw [hpe] at hmem
        exact absurd hmem hnv
      · intro _
        rw [hpe]
        show e + cw.2 ≤ maxMove b0 * ((insertB visited u).length + 1)
        have hw : cw.2 ≤ maxMove b0 := by
          rw [← hmax_u]
          exact (children_cost_bounds (show (cw.1, cw.2) ∈ childrenOf u from hcw)).2
        have : maxMove b0 * ((insertB visited u).length + 1) =
            maxMove b0 * (insertB visited u).length + maxMove b0 := by ring
        omega
    · have hpold := inv.entries_bound p (hsub p hp1)
      constructor
      · intro hmem
        by_cases hpv : p.1 ∈ visited
        · have h1 := hpold.1 hpv
          have h2 : visited.length ≤ (insertB visited u).length := by
            rcases hlen with h3 | ⟨_, h3⟩ <;> omega
          calc p.2 ≤ maxMove b0 * visited.length := h1
            _ ≤ maxMove b0 * (insertB visited u).length := Nat.mul_le_mul_left _ h2
        · have h1 := hpold.2 hpv
          have h2 : p.1 = u := by
            rcases mem_insertB.mp hmem with h3 | h3
            · exact h3
            · exact absurd h3 hpv
          have h3 : u ∉ visited := by
            rw [← h2]
            exact hpv
          rcases hlen with h4 | ⟨_, h4⟩
          · unfold insertB at h4
            rw [if_neg h3] at h4
            simp at h4
          · rw [h4]
            exact h1
      · intro hmem
        have hpv : p.1 ∉ visited := fun h => hmem (mem_insertB.mpr (Or.inr h))
        have h1 := hpold.2 hpv
        have h2 : visited.length ≤ (insertB visited u).length := by
          rcases hlen with h3 | ⟨_, h3⟩ <;> omega
        calc p.2 ≤ maxMove b0 * (visited.length + 1) := h1
          _ ≤ maxMove b0 * ((insertB visited u).length + 1) :=
            Nat.mul_le_mul_left _ (by omega)

/-- A strict upper bound on every frontier entry's cost during a search
started from a burrow of shape `rowShape b0`. -/
def costCeil (b0 : Burrow) : Nat :=
  maxMove b0 * (stateBound (rowShape b0) + 1) + 1

/-- The termination measure of the search loop: summed over the frontier,
an exponential in the remaining cost headroom. -/
def searchPhi (b0 : Burrow) (q : PriorityQueue Burrow) : Nat :=
  ((qEntries q).map fun wp => (branchBound b0 + 1) ^ (costCeil b0 - wp.2)).sum

lemma entries_lt_ceil {b0 t : Burrow} {q : PriorityQueue Burrow} {visited : List Burrow}
    (inv : SearchInv b0 t q visited) : ∀ p ∈ qEntries q, p.2 < costCeil b0 := by
  intro p hp
  have hlen : visited.length ≤ stateBound (rowShape b0) :=
    vis_length_le_stateBound (rowShape b0) visited inv.vis_nodup inv.vis_shape
  have hb := inv.entries_bound p hp
  unfold costCeil
  by_cases hv : p.1 ∈ visited
  · have h1 := hb.1 hv
    have h2 : maxMove b0 * visited.length ≤ maxMove b0 * (stateBound (rowShape b0) + 1) :=
      Nat.mul_le_mul_left _ (by omega)
    omega
  · have h1 := hb.2 hv
    have h2 : maxMove b0 * (visited.length + 1) ≤
        maxMove b0 * (stateBound (rowShape b0) + 1) :=
      Nat.mul_le_mul_left _ (by omega)
    omega

lemma searchPhi_decreases {b0 t : Burrow} {q : PriorityQueue Burrow} {visited : List Burrow}
    {u : Burrow} {e : Nat} {q1 : PriorityQueue Burrow}
    (inv : SearchInv b0 t q visited) (hpop : q.pop = some ((u, e), q1)) :
    searchPhi b0 (pushChildren (insertB visited u) e q1 (childrenOf u)) < searchPhi b0 q := by
  have hwfq1 : WFQ q1 := WFQ_pop q inv.wfq u e q1 hpop
  obtain ⟨l1, l2, hs1, hs2⟩ := qEntries_pop q inv.wfq u e q1 hpop
  have hmemq : (u, e) ∈ qEntries q := by
    rw [hs1]
    exact List.mem_append.mpr (Or.inr (List.mem_cons_self _ _))
  have hshape_u : rowShape u = rowShape b0 := inv.entries_shape (u, e) hmemq
  have htot_u : u.totalCells = b0.totalCells := totalCells_of_rowShape hshape_u
  have hbranch_u : branchBound u = branchBound b0 := by
    unfold branchBound
    rw [htot_u]
  have helt : e < costCeil b0 := entries_lt_ceil inv (u, e) hmemq
  have hq2 := qEntries_pushChildren (insertB visited u) e (childrenOf u) q1 hwfq1
  unfold searchPhi
  rw [hq2, List.map_append, List.sum_append, hs1, hs2]
  rw [List.map_append, List.sum_append, List.map_append, List.sum_append, List.map_cons,
    List.sum_cons]
  have hproj : (branchBound b0 + 1) ^ (costCeil b0 - (u, e).2) =
      (branchBound b0 + 1) ^ (costCeil b0 - e) := rfl
  rw [hproj]
  -- it suffices to bound the pushed terms against the removed term
  have hpushed : ((((childrenOf u).filter fun cw => cw.1 ∉ insertB visited u).map
      fun cw => (cw.1, e + cw.2)).reverse.map
        fun wp => (branchBound b0 + 1) ^ (costCeil b0 - wp.2)).sum <
        (branchBound b0 + 1) ^ (costCeil b0 - e) := by
    obtain ⟨k, hk⟩ : ∃ k, costCeil b0 - e = k + 1 := ⟨costCeil b0 - e - 1, by omega⟩
    have hterm : ∀ v ∈ (((childrenOf u).filter fun cw => cw.1 ∉ insertB visited u).map
        fun cw => (cw.1, e + cw.2)).reverse.map
          fun wp => (branchBound b0 + 1) ^ (costCeil b0 - wp.2),
        v ≤ (branchBound b0 + 1) ^ k := by
      intro v hv
      obtain ⟨wp, hwp, hwpv⟩ := List.mem_map.mp hv
      obtain ⟨cw, hcw, hcwwp⟩ := List.mem_map.mp (List.mem_reverse.mp hwp)
      have hcost : 1 ≤ cw.2 :=
        (children_cost_bounds (show (cw.1, cw.2) ∈ childrenOf u from
          (List.mem_filter.mp hcw).1)).1
      have hwp2 : wp.2 = e + cw.2 := by rw [← hcwwp]
      rw [← hwpv, hwp2]
      exact Nat.pow_le_pow_right (by omega) (by omega)
    have hlen : (((childrenOf u).filter fun cw => cw.1 ∉ insertB visited u).map
        fun cw => (cw.1, e + cw.2)).reverse.length ≤ branchBound b0 := by
      rw [List.length_reverse, List.length_map]
      calc ((childrenOf u).filter fun cw => cw.1 ∉ insertB visited u).length
          ≤ (childrenOf u).length := List.length_filter_le _ _
        _ ≤ branchBound u := childrenOf_length u
        _ = branchBound b0 := hbranch_u
    have hsum := List.sum_le_card_nsmul _ ((branchBound b0 + 1) ^ k) hterm
    rw [List.length_map, smul_eq_mul] at hsum
    have hpow : (branchBound b0 + 1) ^ (costCeil b0 - e) =
        (branchBound b0 + 1) ^ k * (branchBound b0 + 1) := by
      rw [hk, pow_succ]
    have hpos : 0 < (branchBound b0 + 1) ^ k := Nat.one_le_pow _ _ (by omega)
    have hlen2 : (((childrenOf u).filter fun cw => cw.1 ∉ insertB visited u).map
        fun cw => (cw.1, e + cw.2)).reverse.length * (branchBound b0 + 1) ^ k ≤
        branchBound b0 * (branchBound b0 + 1) ^ k := Nat.mul_le_mul_right _ hlen
    calc ((((childrenOf u).filter fun cw => cw.1 ∉ insertB visited u).map
        fun cw => (cw.1, e + cw.2)).reverse.map
          fun wp => (branchBound b0 + 1) ^ (costCeil b0 - wp.2)).sum
        ≤ _ * (branchBound b0 + 1) ^ k := hsum
      _ ≤ branchBound b0 * (branchBound b0 + 1) ^ k := hlen2
      _ < (branchBound b0 + 1) * (branchBound b0 + 1) ^ k :=
          (Nat.mul_lt_mul_right hpos).mpr (by omega)
      _ = (branchBound b0 + 1) ^ (costCeil b0 - e) := by rw [hpow]; ring
  omega

lemma searchLoop_step_eq (t u : Burrow) (f e : Nat) (q q1 : PriorityQueue Burrow)
    (visited : List Burrow) (hpop : q.pop = some ((u, e), q1)) (hne : u ≠ t) :
    searchLoop t (f + 1) q visited =
      searchLoop t f (pushChildren (insertB visited u) e q1 (childrenOf u))
        (insertB visited u) := by
  conv_lhs => unfold searchLoop
  rw [hpop]
  dsimp only
  rw [if_neg hne]

/-- With the invariant holding, some amount of fuel completes the search. -/
lemma searchLoop_no_fuelOut {b0 t : Burrow} :
    ∀ phi q visited, SearchInv b0 t q visited → searchPhi b0 q ≤ phi →
      ∃ n, searchLoop t n q visited ≠ .fuelOut := by
  intro phi
  induction phi using Nat.strong_induction_on with
  | _ phi ih =>
    intro q visited inv hphi
    cases hpop : q.pop with
    | none =>
      refine ⟨1, ?_⟩
      unfold searchLoop
      rw [hpop]
      simp
    | some x =>
      rcases x with ⟨⟨u, e⟩, q1⟩
      by_cases hu : u = t
      · refine ⟨1, ?_⟩
        unfold searchLoop
        rw [hpop]
        dsimp only
        rw [if_pos hu]
        simp
      · have inv2 := searchInv_step inv hpop hu
        have hdec := searchPhi_decreases inv hpop
        obtain ⟨n, hn⟩ := ih (searchPhi b0
          (pushChildren (insertB visited u) e q1 (childrenOf u))) (by omega) _ _ inv2 le_rfl
        refine ⟨n + 1, ?_⟩
        rw [searchLoop_step_eq t u n e q q1 visited hpop hu]
        exact hn

/-- What a finished search reports is correct: `none` only when the target
is unreachable, and `some c` only for the minimum cost. -/
lemma searchLoop_result {b0 t : Burrow} :
    ∀ n q visited, SearchInv b0 t q visited →
      (searchLoop t n q visited = .finished none → ∀ m, ¬ Reaches b0 t m) ∧
      (∀ c, searchLoop t n q visited = .finished (some c) → DistB b0 t c) := by
  intro n
  induction n with
  | zero =>
    intro q visited _
    constructor
    · intro h
      exact absurd h (by simp [searchLoop])
    · intro c h
      exact absurd h (by simp [searchLoop])
  | succ f ih =>
    intro q visited inv
    cases hpop : q.pop with
    | none =>
      have hheap : q.heap = [] := (pop_eq_none_iff q inv.wfq).mp hpop
      have hempty : qEntries q = [] := by
        unfold qEntries
        rw [hheap]
        rfl
      have hnone : ∀ m, ¬ Reaches b0 t m := by
        intro m hm
        rcases frontier_cover inv t m hm with h1 | ⟨wp, hwp, _⟩
        · exact inv.t_not_vis h1
        · rw [hempty] at hwp
          exact absurd hwp (by simp)
      constructor
      · intro _
        exact hnone
      · intro c hc
        unfold searchLoop at hc
        rw [hpop] at hc
        simp at hc
    | some x =>
      rcases x with ⟨⟨u, e⟩, q1⟩
      by_cases hu : u = t
      · have hmemq : (u, e) ∈ qEntries q := by
          obtain ⟨l1, l2, hs1, _⟩ := qEntries_pop q inv.wfq u e q1 hpop
          rw [hs1]
          exact List.mem_append.mpr (Or.inr (List.mem_cons_self _ _))
        have hres : searchLoop t (f + 1) q visited = .finished (some e) := by
          unfold searchLoop
          rw [hpop]
          dsimp only
          rw [if_pos hu]
        have hdist : DistB b0 t e := by
          constructor
          · rw [← hu]
            exact inv.entries_path (u, e) hmemq
          · intro m hm
            rcases frontier_cover inv t m hm with h1 | ⟨wp, hwp, hle⟩
            · exact absurd h1 inv.t_not_vis
            · have := qEntries_min q inv.wfq u e q1 hpop wp hwp
              omega
        constructor
        · intro h
          rw [hres] at h
          exact absurd h (by simp)
        · intro c hc
          rw [hres] at hc
          have : some e = some c := by injection hc
          have hec : e = c := by injection this
          rw [← hec]
          exact hdist
      · have inv2 := searchInv_step inv hpop hu
        rw [searchLoop_step_eq t u f e q q1 visited hpop hu]
        exact ih _ _ inv2

lemma qEntries_initQueue (b : Burrow) : qEntries (initQueue b) = (b, 0) :: [] := by
  unfold initQueue
  rw [qEntries_push _ WFQ_new]
  rfl

lemma searchInv_init (b t : Burrow) (hne : b ≠ t) :
    SearchInv b t (initQueue b) (b :: []) := by
  have hq := qEntries_initQueue b
  have hd0 : DistB b b 0 := ⟨Reaches.refl, fun m _ => Nat.zero_le m⟩
  refine ⟨WFQ_push _ WFQ_new b 0, ?_, ?_, ?_, by simp, by simp, ?_, ?_, ?_⟩
  · intro p hp
    rw [hq] at hp
    rcases List.mem_cons.mp hp with h1 | h1
    · rw [h1]
      exact Reaches.refl
    · exact absurd h1 (by simp)
  · intro p hp
    rw [hq] at hp
    rcases List.mem_cons.mp hp with h1 | h1
    · rw [h1]
    · exact absurd h1 (by simp)
  · intro v hv
    rcases List.mem_cons.mp hv with h1 | h1
    · rw [h1]
    · exact absurd h1 (by simp)
  · intro hmem
    rcases List.mem_cons.mp hmem with h1 | h1
    · exact hne h1.symm
    · exact absurd h1 (by simp)
  · intro v hv
    rcases List.mem_cons.mp hv with h1 | h1
    · subst h1
      exact Or.inl ⟨0, 0, by rw [hq]; exact List.mem_cons_self _ _, hd0, le_rfl⟩
    · exact absurd h1 (by simp)
  · intro p hp
    rw [hq] at hp
    rcases List.mem_cons.mp hp with h1 | h1
    · constructor
      · intro _
        rw [h1]
        simp
      · intro _
        rw [h1]
        simp
    · exact absurd h1 (by simp)

lemma pop_initQueue (b : Burrow) :
    (initQueue b).pop = some ((b, 0),
      { heap := [], values := [], next_index := 1 }) := rfl

/-- The search loop always finishes in some finite amount of fuel: the
frontier and visited set range over the finitely many arrangements of the
initial shape, with bounded costs. -/
theorem searchTerminates (b t : Burrow) :
    ∃ n, searchLoop t n (initQueue b) (b :: []) ≠ .fuelOut := by
  by_cases hbt : b = t
  · refine ⟨1, ?_⟩
    conv_lhs => unfold searchLoop
    rw [pop_initQueue b]
    dsimp only
    rw [if_pos hbt]
    simp
  · exact searchLoop_no_fuelOut (searchPhi b (initQueue b)) (initQueue b) (b :: [])
      (searchInv_init b t hbt) le_rfl

/-- `part_a` (src/day23.rs:226-296): run the search loop with a
proved-sufficient amount of fuel (the fuel is an artifact of the
embedding; `searchTerminates` shows the Rust `while let` loop this models
always finishes). -/
def part_a (burrow : Burrow) : Option Nat :=
  match searchLoop Burrow.target (Nat.find (searchTerminates burrow Burrow.target))
      (initQueue burrow) (burrow :: []) with
  | .fuelOut => none
  | .finished r => r

lemma part_a_spec (b : Burrow) :
    ∃ n, searchLoop Burrow.target n (initQueue b) (b :: []) = .finished (part_a b) := by
  refine ⟨Nat.find (searchTerminates b Burrow.target), ?_⟩
  have h := Nat.find_spec (searchTerminates b Burrow.target)
  unfold part_a
  cases hres : searchLoop Burrow.target (Nat.find (searchTerminates b Burrow.target))
      (initQueue b) (b :: []) with
  | fuelOut => exact absurd hres h
  | finished r => rfl

/-- Correctness of whatever `part_a` reports, for any start. -/
lemma part_a_result (b : Burrow) :
    (part_a b = none → ∀ m, ¬ Reaches b Burrow.target m) ∧
    (∀ c, part_a b = some c → DistB b Burrow.target c) := by
  obtain ⟨n, hn⟩ := part_a_spec b
  by_cases hbt : b = Burrow.target
  · have h1 : searchLoop Burrow.target n (initQueue b) (b :: []) = .finished (some 0) := by
      cases n with
      | zero => exact absurd hn (by simp [searchLoop])
      | succ f =>
        conv_lhs => unfold searchLoop
        rw [pop_initQueue b]
        dsimp only
        rw [if_pos hbt]
    rw [hn] at h1
    have h2 : part_a b = some 0 := by
      have h3 : SearchOut.finished (part_a b) = SearchOut.finished (some 0) := by rw [h1]
      injection h3
    constructor
    · intro hcontra
      rw [h2] at hcontra
      exact absurd hcontra (by simp)
    · intro c hc
      rw [h2] at hc
      have hc2 : c = 0 := by
        have := hc.symm
        injection this
      rw [hc2, hbt]
      exact ⟨Reaches.refl, fun m _ => Nat.zero_le m⟩
  · have hres := searchLoop_result n (initQueue b) (b :: []) (searchInv_init b _ hbt)
    constructor
    · intro hnone
      rw [hnone] at hn
      exact hres.1 hn
    · intro c hc
      rw [hc] at hn
      exact hres.2 c hn

lemma reaches_shape {b0 c : Burrow} {n : Nat} (h : Reaches b0 c n) :
    rowShape c = rowShape b0 := by
  induction h with
  | refl => rfl
  | step hc hedge ih => rw [children_shape hedge, ih]

lemma part_a_none_of_shape {b : Burrow} (h : rowShape b ≠ rowShape Burrow.target) :
    part_a b = none := by
  cases hres : part_a b with
  | none => rfl
  | some c =>
    have hdist := (part_a_result b).2 c hres
    have := reaches_shape hdist.1
    exact absurd (by rw [← this]) h

/-- Claim C1: whenever the target arrangement is reachable from the
initial arrangement by generated moves, `part_a` returns `some c` where
`c` is the minimum, over all generated move sequences from the initial
arrangement to the target, of the total energy cost. -/
theorem C1_part_a_returns_minimum_cost (b : Burrow)
    (h : ∃ m, Reaches b Burrow.target m) :
    ∃ c, part_a b = some c ∧ DistB b Burrow.target c := by
  cases hres : part_a b with
  | some c => exact ⟨c, rfl, (part_a_result b).2 c hres⟩
  | none =>
    obtain ⟨m, hm⟩ := h
    exact absurd hm ((part_a_result b).1 hres m)

/-- Witness for C1: starting at the target itself (reachable by the empty
move sequence), the search returns the minimum cost 0. -/
theorem C1_part_a_witness : part_a Burrow.target = some 0 := by
  obtain ⟨c, hc, hdist⟩ :=
    C1_part_a_returns_minimum_cost Burrow.target ⟨0, Reaches.refl⟩
  have h0 : c = 0 := Nat.le_antisymm (hdist.2 0 Reaches.refl) (Nat.zero_le c)
  rw [← h0]
  exact hc

/-- Claim C6: for every initial arrangement, the search loop finishes in
some finite amount of fuel (the state space of the initial shape is
finite), on an exhausted frontier the loop returns `finished none` (an
absent value, not an error), and `part_a` reports `none` exactly when the
target is unreachable. -/
theorem C6_search_terminates (b : Burrow) :
    (∃ n r, searchLoop Burrow.target n (initQueue b) (b :: []) = .finished r) ∧
    (∀ n q vis, PriorityQueue.pop q = none →
      searchLoop Burrow.target (n + 1) q vis = .finished none) ∧
    (part_a b = none ↔ ∀ m, ¬ Reaches b Burrow.target m) := by
  obtain ⟨n, hn⟩ := part_a_spec b
  refine ⟨⟨n, part_a b, hn⟩, ?_, ?_, ?_⟩
  · intro n1 q vis hq
    conv_lhs => unfold searchLoop
    rw [hq]
  · exact (part_a_result b).1
  · intro h
    cases hres : part_a b with
    | none => rfl
    | some c =>
      have hdist := (part_a_result b).2 c hres
      exact absurd hdist.1 (h c)

/-- Witness for C6: on the little one-row arrangement the target (whose
grid has a different shape) is unreachable, and the search indeed reports
the absent value. -/
theorem C6_search_witness : part_a tinyExample = none := by
  refine (C6_search_terminates tinyExample).2.2.mpr ?_
  intro m hm
  have h := reaches_shape hm
  revert h
  decide

/-- The canonical 4-deep ("unfolded") example input of the puzzle. -/
def unfoldedExample : String :=
  "#############\n#...........#\n###B#C#B#D###\n  #D#C#B#A#\n  #D#B#A#C#\n  #A#D#C#A#\n  #########\n"

/-- `main` (src/day23.rs:298-305) after the file read: parse the input,
run `part_a`, and pair its result with `None` — the second member of the
tuple (part B) is hard-coded to `None`. -/
def main (input : String) : Except String (Nat × Option Nat) :=
  match Burrow.from_str input with
  | .error e => .error e
  | .ok burrow =>
    match part_a burrow with
    | some c => .ok (c, none)
    | none => .error "Can't find a solution for part A"

/-- The parsed 4-deep example grid. -/
def unfoldedBurrow : Burrow :=
  match Burrow.from_str unfoldedExample with
  | .ok b => b
  | .error _ => ⟨[]⟩

lemma part_a_target_eq : part_a Burrow.target = some 0 := by
  cases hres : part_a Burrow.target with
  | none => exact absurd Reaches.refl ((part_a_result _).1 hres 0)
  | some c =>
    have hdist := (part_a_result _).2 c hres
    have h0 : c = 0 := Nat.le_antisymm (hdist.2 0 Reaches.refl) (Nat.zero_le c)
    rw [h0]

lemma main_of_parse (s : String) (b : Burrow) (hs : Burrow.from_str s = .ok b) :
    main s = match part_a b with
      | some c => Except.ok (c, none)
      | none => Except.error "Can't find a solution for part A" := by
  unfold main
  rw [hs]

lemma main_none_of (s : String) (b : Burrow) (hs : Burrow.from_str s = .ok b)
    (hn : part_a b = none) :
    main s = .error "Can't find a solution for part A" := by
  rw [main_of_parse s b hs, hn]

lemma main_some_of (s : String) (b : Burrow) (c : Nat)
    (hs : Burrow.from_str s = .ok b) (hc : part_a b = some c) :
    main s = .ok (c, none) := by
  rw [main_of_parse s b hs, hc]

lemma main_unfolded_error :
    main unfoldedExample = .error "Can't find a solution for part A" :=
  main_none_of unfoldedExample unfoldedBurrow rfl
    (part_a_none_of_shape (by decide))

/-- The program only ever produces the part-one answer: a successful
`main` always carries `none` as its second component. -/
lemma main_snd_none :
    ∀ s r, main s = .ok r → r.2 = none := by
  intro s r h
  unfold main at h
  cases hp : Burrow.from_str s with
  | error e => rw [hp] at h; exact absurd h (by simp)
  | ok burrow =>
    rw [hp] at h
    dsimp only at h
    cases hres : part_a burrow with
    | none => rw [hres] at h; exact absurd h (by simp)
    | some c =>
      rw [hres] at h
      have h2 : (c, (none : Option Nat)) = r := by
        have h3 : Except.ok (ε := String) (c, (none : Option Nat)) = .ok r := h
        injection h3
      rw [← h2]

/-- On the target text itself the program answers with cost 0 and no
part-two value. -/
lemma main_target_eq : main targetStr = .ok (0, none) :=
  main_some_of targetStr Burrow.target 0 rfl part_a_target_eq

end Day23
